import Mathlib

set_option maxHeartbeats 1000000

/-!
Shallow embedding of the kmz-distance route analyzer.

The embedding follows `src/src/utils/kml.ts` (route extraction, coordinate and
reference parsing, haversine distance) and the furthest-point scan of
`runKmzAnalysis` (src/unnamed/part_001).  The parsed XML document tree is
modelled by `JsValue`, a JavaScript-like value universe: `vUndef` is the
JavaScript `undefined`, `vNull` is `null`, and objects are association lists.
JavaScript numbers are idealised as exact rationals (`ℚ`); the real-valued
haversine computation is carried out over `ℝ`.

Property access on `null`/`undefined` throws a TypeError in JavaScript; a
function that can throw is modelled with an `Option` result, `none` meaning
the extraction aborted with an exception.
-/

inductive JsValue : Type where
  | vUndef : JsValue
  | vNull : JsValue
  | vBool : Bool → JsValue
  | vNum : ℚ → JsValue
  | vStr : String → JsValue
  | vArr : List JsValue → JsValue
  | vObj : List (String × JsValue) → JsValue
deriving Repr

open JsValue

/-- JavaScript truthiness test (`!value`): `undefined`, `null`, `false`, `0`
and the empty string are falsy. -/
def jsFalsy : JsValue → Bool
  | vUndef => true
  | vNull => true
  | vBool b => !b
  | vNum q => q == 0
  | vStr s => s == ""
  | _ => false

/-- Source `isRecord`: `typeof value === 'object' && value !== null`.  Note
that JavaScript arrays satisfy this test. -/
def isRecord : JsValue → Bool
  | vObj _ => true
  | vArr _ => true
  | _ => false

/-- Source `toArray`: `undefined` becomes the empty list, an array is itself,
anything else (including `null`) becomes a one-element list. -/
def toArray : JsValue → List JsValue
  | vUndef => []
  | vArr es => es
  | v => [v]

/-- First-match association-list lookup; a missing key reads as `undefined`,
as JavaScript property access does. -/
def lookupField : List (String × JsValue) → String → JsValue
  | [], _ => vUndef
  | (k, v) :: fs, key => if k = key then v else lookupField fs key

/-- Non-throwing part of property access: objects look up the key, arrays and
scalars yield `undefined` for the (non-numeric) keys the extractor uses.
Reading a property of `null`/`undefined` is gated by `getField`. -/
def fieldOf : JsValue → String → JsValue
  | vObj fs, key => lookupField fs key
  | _, _ => vUndef

/-- JavaScript property access `v.key`: throws (`none`) on `null` and
`undefined`, otherwise yields `fieldOf`. -/
def getField : JsValue → String → Option JsValue
  | vNull, _ => none
  | vUndef, _ => none
  | v, key => some (fieldOf v key)

/-- Reads a string-valued `_` (text-content) property of an object. -/
def underscoreOf : JsValue → Option String
  | vObj fs =>
    match lookupField fs "_" with
    | vStr s => some s
    | _ => none
  | _ => none

/-- Source `asString`: a bare string, the first element of an array when it is
a string or a record with string text content, or a record's string text
content; otherwise `null` (here `none`).  For an array whose head is neither,
the fall-through check reads the array's own `_` property, which is
`undefined`, so the result is `none`. -/
def asString : JsValue → Option String
  | vStr s => some s
  | vArr [] => none
  | vArr (first :: _) =>
    match first with
    | vStr s => some s
    | f => underscoreOf f
  | v => underscoreOf v

/-- Source `appendName`: a falsy candidate contributes nothing; otherwise its
resolved `name`, when a non-empty string, is appended to the breadcrumb. -/
def appendName (parts : List String) (candidate : JsValue) : List String :=
  if jsFalsy candidate then parts
  else
    match asString (fieldOf candidate "name") with
    | some s => if s = "" then parts else parts ++ [s]
    | none => parts

/-- Splits a character list at every character satisfying `p`, keeping empty
chunks, as `String.split` / JavaScript `split` with a single-character
separator do: `split (¬= ',') "a,,b" = ["a", "", "b"]` and the empty string
splits to `[""]`. -/
def splitChars (p : Char → Bool) : List Char → List (List Char)
  | [] => [[]]
  | c :: cs =>
    let rest := splitChars p cs
    if p c then [] :: rest
    else
      match rest with
      | chunk :: chunks => (c :: chunk) :: chunks
      | [] => [[c]]

/-- JavaScript `String.prototype.trim`: removes whitespace from both ends. -/
def trimChars (cs : List Char) : List Char :=
  ((cs.dropWhile Char.isWhitespace).reverse.dropWhile Char.isWhitespace).reverse

/-- String wrapper of `trimChars`. -/
def jsTrim (s : String) : String :=
  String.mk (trimChars s.toList)

/-- String wrapper of `splitChars`: JavaScript `value.split(sep)` for a
one-character separator. -/
def jsSplitOn (sep : Char) (s : String) : List String :=
  (splitChars (fun c => c == sep) s.toList).map String.mk

/-- Numeric value of a list of decimal digit characters. -/
def digitsVal (cs : List Char) : ℕ :=
  cs.foldl (fun n c => 10 * n + (c.toNat - 48)) 0

/-- Digits of an exponent part (maximal leading run). -/
def parseExpDigits (cs : List Char) : ℤ :=
  (digitsVal (cs.takeWhile Char.isDigit) : ℤ)

/-- Signed exponent digits. -/
def parseExpSigned : List Char → ℤ
  | '+' :: rest => parseExpDigits rest
  | '-' :: rest => - parseExpDigits rest
  | rest => parseExpDigits rest

/-- Optional `e`/`E` exponent suffix of a JavaScript float literal; an `e`
not followed by digits contributes exponent 0, as `parseFloat` stops there. -/
def parseExponent : List Char → ℤ
  | 'e' :: rest => parseExpSigned rest
  | 'E' :: rest => parseExpSigned rest
  | _ => 0

/-- Value `m * 10 ^ e` of a decimal literal with integer mantissa `m` and
decimal exponent `e`, built through `mkRat` so that it evaluates in the
kernel. -/
def ratOfParts (m : ℤ) (e : ℤ) : ℚ :=
  if 0 ≤ e then ((m * 10 ^ e.toNat : ℤ) : ℚ) else mkRat m (10 ^ (-e).toNat)

/-- Unsigned part of `Number.parseFloat`: longest prefix of the form
`digits [. digits] [exponent]`, whose mathematical value is
`(intDigits.fracDigits) * 10 ^ exponent`; no digits at all parses to NaN
(`none`).  An `Infinity` literal would also yield a non-finite value, which
the callers reject via `Number.isFinite`, so it is likewise `none` here (it
has no digit prefix).  Overflow of huge exponents to `Infinity` is not
modelled: numbers are exact rationals. -/
def parseUnsignedFloat (cs : List Char) : Option ℚ :=
  let intDigits := cs.takeWhile Char.isDigit
  let rest1 := cs.dropWhile Char.isDigit
  let fracDigits :=
    match rest1 with
    | '.' :: r => r.takeWhile Char.isDigit
    | _ => []
  let rest2 :=
    match rest1 with
    | '.' :: r => r.dropWhile Char.isDigit
    | _ => rest1
  if intDigits.isEmpty && fracDigits.isEmpty then none
  else
    let mantissa : ℤ := (digitsVal intDigits * 10 ^ fracDigits.length + digitsVal fracDigits : ℕ)
    some (ratOfParts mantissa (parseExponent rest2 - fracDigits.length))

/-- `Number.parseFloat` composed with the `Number.isFinite` test used by all
call sites: `some q` when the string parses to the finite value `q`, and
`none` when it parses to NaN (or to an infinity). -/
def jsParseFloat (s : String) : Option ℚ :=
  match s.toList.dropWhile Char.isWhitespace with
  | '+' :: rest => parseUnsignedFloat rest
  | '-' :: rest => (parseUnsignedFloat rest).map Neg.neg
  | cs => parseUnsignedFloat cs

structure ReferencePoint : Type where
  latitude : ℚ
  longitude : ℚ
deriving Repr, DecidableEq

structure Coordinate extends ReferencePoint where
  altitude : Option ℚ
deriving Repr, DecidableEq

structure RouteSegment : Type where
  name : String
  coordinates : List Coordinate
deriving Repr, DecidableEq

/-- Body of the token loop of `parseCoordinates`: a token is trimmed, split at
commas into `longitude,latitude[,altitude]`, and contributes a point exactly
when both longitude and latitude are finite; a present, non-empty altitude
part is kept when finite, otherwise the altitude is `none`. -/
def parseToken (token : String) : Option Coordinate :=
  let trimmed := jsTrim token
  if trimmed = "" then none
  else
    let parts := jsSplitOn ',' trimmed
    match parts[0]?, parts[1]? with
    | some longitudePart, some latitudePart =>
      match jsParseFloat longitudePart, jsParseFloat latitudePart with
      | some longitude, some latitude =>
        let altitude :=
          match parts[2]? with
          | some altitudePart => if altitudePart = "" then none else jsParseFloat altitudePart
          | none => none
        some { latitude := latitude, longitude := longitude, altitude := altitude }
      | _, _ => none
    | _, _ => none

/-- Source `parseCoordinates`: resolve the raw value to text, split on
whitespace and parse each token.  JavaScript splits on runs of whitespace
(`/\s+/`); splitting at each whitespace character instead only adds empty
tokens, which the loop skips, so the results coincide. -/
def parseCoordinates (raw : JsValue) : List Coordinate :=
  match asString raw with
  | none => []
  | some text =>
    if text = "" then []
    else ((splitChars Char.isWhitespace text.toList).map String.mk).filterMap parseToken

/-- Source `parseReference` (src/src/utils/kml.ts): latitude-then-longitude
comma-separated text, each part trimmed; fails (`none`) on a falsy input, on
fewer than two parts, or when either part is not finite. -/
def parseReference (value : String) : Option ReferencePoint :=
  if value = "" then none
  else
    let parts := (jsSplitOn ',' value).map jsTrim
    match parts[0]?, parts[1]? with
    | some latPart, some lonPart =>
      match jsParseFloat latPart, jsParseFloat lonPart with
      | some latitude, some longitude => some { latitude := latitude, longitude := longitude }
      | _, _ => none
    | _, _ => none

mutual

/-- Computable structural size of a `JsValue`, used as recursion fuel. -/
def jsSize : JsValue → ℕ
  | vArr es => 1 + jsSizeL es
  | vObj fs => 1 + jsSizeF fs
  | _ => 1

/-- Size of a list of values. -/
def jsSizeL : List JsValue → ℕ
  | [] => 0
  | v :: vs => jsSize v + jsSizeL vs

/-- Size of an object's field list. -/
def jsSizeF : List (String × JsValue) → ℕ
  | [] => 0
  | p :: fs => jsSize p.2 + jsSizeF fs

end

/-- Every `JsValue` has positive size. -/
theorem jsSize_pos (v : JsValue) : 0 < jsSize v := by
  cases v <;> simp [jsSize]

/-- A list member is bounded by the list size. -/
theorem jsSize_le_of_mem {c : JsValue} {es : List JsValue} (h : c ∈ es) :
    jsSize c ≤ jsSizeL es := by
  induction es with
  | nil => simp at h
  | cons e rest ih =>
    rcases List.mem_cons.mp h with rfl | hm
    · simp [jsSizeL]
    · have := ih hm
      simp only [jsSizeL]
      omega

/-- A looked-up field is `undefined` or bounded by the field-list size. -/
theorem jsSize_lookupField (fs : List (String × JsValue)) (key : String) :
    lookupField fs key = vUndef ∨ jsSize (lookupField fs key) ≤ jsSizeF fs := by
  induction fs with
  | nil => exact Or.inl rfl
  | cons p rest ih =>
    obtain ⟨k, v⟩ := p
    by_cases hk : k = key
    · right
      simp only [lookupField, if_pos hk, jsSizeF]
      omega
    · simp only [lookupField, if_neg hk, jsSizeF]
      rcases ih with h | h
      · exact Or.inl h
      · right; omega

/-- Any element obtained from a property through `toArray` is smaller than
the owning value; this justifies the recursions of the extractor. -/
theorem jsSize_mem_toArray_fieldOf {c v : JsValue} {key : String}
    (h : c ∈ toArray (fieldOf v key)) : jsSize c < jsSize v := by
  match v with
  | vUndef | vNull | vBool _ | vNum _ | vStr _ | vArr _ =>
    simp [fieldOf, toArray] at h
  | vObj fs =>
    simp only [fieldOf] at h
    rcases jsSize_lookupField fs key with hu | hx
    · rw [hu] at h; simp [toArray] at h
    · match hlk : lookupField fs key with
      | vUndef => rw [hlk] at h; simp [toArray] at h
      | vArr es =>
        rw [hlk] at h
        simp only [toArray] at h
        have hle := jsSize_le_of_mem h
        rw [hlk] at hx
        simp only [jsSize] at hx ⊢
        omega
      | vNull | vBool _ | vNum _ | vStr _ | vObj _ =>
        rw [hlk] at h
        simp only [toArray, List.mem_singleton] at h
        subst h
        rw [hlk] at hx
        simp only [jsSize] at hx ⊢
        omega

/-- Fuel-indexed helper for `collectLineStrings`; the fuel is a termination
device only (`collectLineStrings_eq` recovers the source recursion, whose
calls always descend to strictly smaller values). -/
def collectLSAux : ℕ → JsValue → List JsValue
  | 0, _ => []
  | fuel + 1, node =>
    if jsFalsy node then []
    else
      let direct := toArray (fieldOf node "LineString")
      let nested := (toArray (fieldOf node "MultiGeometry")).map (collectLSAux fuel)
      direct ++ nested.flatten

/-- Source `collectLineStrings`: direct `LineString` children plus the line
strings nested in `MultiGeometry` children, recursively, in that order.  The
guard `if (!node) return []` makes the function total: a falsy node (such as
`null` or `undefined` among the children) contributes nothing, and property
access on the remaining values cannot throw. -/
def collectLineStrings (node : JsValue) : List JsValue :=
  collectLSAux (jsSize node) node

/-- The fuel of `collectLSAux` is irrelevant as soon as it covers the size of
the node. -/
theorem collectLSAux_congr (n : ℕ) (node : JsValue) (f g : ℕ)
    (hf : jsSize node ≤ f) (hg : jsSize node ≤ g) (hn : jsSize node ≤ n) :
    collectLSAux f node = collectLSAux g node := by
  induction n generalizing node f g with
  | zero => exact absurd (Nat.lt_of_lt_of_le (jsSize_pos node) hn) (by omega)
  | succ n ih =>
    have hp := jsSize_pos node
    match f, g with
    | 0, _ => exact absurd hp (by omega)
    | _ + 1, 0 => exact absurd hp (by omega)
    | f + 1, g + 1 =>
      simp only [collectLSAux]
      by_cases hfal : jsFalsy node
      · simp [hfal]
      · simp only [hfal, Bool.false_eq_true, if_false]
        have hmap : (toArray (fieldOf node "MultiGeometry")).map (collectLSAux f) =
            (toArray (fieldOf node "MultiGeometry")).map (collectLSAux g) := by
          apply List.map_congr_left
          intro c hc
          have hlt : jsSize c < jsSize node := jsSize_mem_toArray_fieldOf hc
          exact ih c f g (by omega) (by omega) (by omega)
        rw [hmap]

/-- Fuel normalisation lemma for `collectLSAux`. -/
theorem collectLSAux_eq (fuel : ℕ) (node : JsValue) (h : jsSize node ≤ fuel) :
    collectLSAux fuel node = collectLineStrings node :=
  collectLSAux_congr (jsSize node) node fuel (jsSize node) h le_rfl le_rfl

/-- Unfolding equation of `collectLineStrings` in the shape of the source
recursion. -/
theorem collectLineStrings_eq (node : JsValue) :
    collectLineStrings node =
      if jsFalsy node then []
      else
        toArray (fieldOf node "LineString") ++
          ((toArray (fieldOf node "MultiGeometry")).map collectLineStrings).flatten := by
  obtain ⟨s, hs⟩ : ∃ s, jsSize node = s + 1 :=
    ⟨jsSize node - 1, by have := jsSize_pos node; omega⟩
  conv_lhs => rw [collectLineStrings, hs]
  simp only [collectLSAux]
  by_cases hfal : jsFalsy node
  · simp [hfal]
  · simp only [hfal, Bool.false_eq_true, if_false]
    have hmap : (toArray (fieldOf node "MultiGeometry")).map (collectLSAux s) =
        (toArray (fieldOf node "MultiGeometry")).map collectLineStrings := by
      apply List.map_congr_left
      intro c hc
      have hlt : jsSize c < jsSize node := jsSize_mem_toArray_fieldOf hc
      exact collectLSAux_eq s c (by omega)
    rw [hmap]

/-- Sequencing of the per-item extraction results: the JavaScript loops push
segments in order and an exception aborts the whole extraction, so the
combined result is `none` exactly when some item threw. -/
def seqSegs : List (Option (List RouteSegment)) → Option (List RouteSegment)
  | [] => some []
  | none :: _ => none
  | some xs :: rest => (seqSegs rest).map (fun ys => xs ++ ys)

/-- Body of the `lineStrings.forEach` loop: reads `lineString.coordinates`
(which throws when the line string is `null`/`undefined`), skips geometries
with zero parsed points, and otherwise emits one segment whose label carries
a 1-based `(segment N)` suffix when the placemark yielded more than one line
geometry in total; an empty label falls back to `"Unnamed route"`. -/
def processLineString (total : ℕ) (breadcrumb : List String) (idx : ℕ)
    (lineString : JsValue) : Option (List RouteSegment) :=
  match getField lineString "coordinates" with
  | none => none
  | some raw =>
    let coordinates := parseCoordinates raw
    if coordinates.isEmpty then some []
    else
      let joined := String.intercalate " / " breadcrumb
      let label :=
        if 1 < total then joined ++ " (segment " ++ toString (idx + 1) ++ ")" else joined
      some [{ name := if label = "" then "Unnamed route" else label, coordinates := coordinates }]

/-- Body of the placemark loop of `traverseContainer`: the placemark's name
is appended to the container breadcrumb, and all its line geometries are
processed in discovery order with their discovery index. -/
def processPlacemark (scopedAncestors : List String) (placemark : JsValue) :
    Option (List RouteSegment) :=
  let breadcrumb := appendName scopedAncestors placemark
  let lineStrings := collectLineStrings placemark
  seqSegs (lineStrings.enum.map (fun p => processLineString lineStrings.length breadcrumb p.1 p.2))

/-- Fuel-indexed helper for `traverseContainer`; the fuel is a termination
device only (`traverseContainer_eq` recovers the source recursion). -/
def traverseAux : ℕ → JsValue → List String → Option (List RouteSegment)
  | 0, _, _ => none
  | fuel + 1, container, ancestors =>
    match getField container "Placemark" with
    | none => none
    | some pm =>
      let scopedAncestors := appendName ancestors container
      match seqSegs ((toArray pm).map (processPlacemark scopedAncestors)) with
      | none => none
      | some placemarkSegs =>
        match seqSegs ((toArray (fieldOf container "Folder")).map
            (fun f => traverseAux fuel f scopedAncestors)) with
        | none => none
        | some folderSegs => some (placemarkSegs ++ folderSegs)

/-- Source `traverseContainer`: reads `container.Placemark` (which throws on
`null`/`undefined` containers), processes the placemarks, then recurses into
the `Folder` children with the container-scoped breadcrumb. -/
def traverseContainer (container : JsValue) (ancestors : List String) :
    Option (List RouteSegment) :=
  traverseAux (jsSize container) container ancestors

/-- The fuel of `traverseAux` is irrelevant as soon as it covers the size of
the container. -/
theorem traverseAux_congr (n : ℕ) (container : JsValue) (ancestors : List String) (f g : ℕ)
    (hf : jsSize container ≤ f) (hg : jsSize container ≤ g) (hn : jsSize container ≤ n) :
    traverseAux f container ancestors = traverseAux g container ancestors := by
  induction n generalizing container ancestors f g with
  | zero => exact absurd (Nat.lt_of_lt_of_le (jsSize_pos container) hn) (by omega)
  | succ n ih =>
    have hp := jsSize_pos container
    match f, g with
    | 0, _ => exact absurd hp (by omega)
    | _ + 1, 0 => exact absurd hp (by omega)
    | f + 1, g + 1 =>
      simp only [traverseAux]
      match hpm : getField container "Placemark" with
      | none => rfl
      | some pm =>
        have hmap : (toArray (fieldOf container "Folder")).map
              (fun v => traverseAux f v (appendName ancestors container)) =
            (toArray (fieldOf container "Folder")).map
              (fun v => traverseAux g v (appendName ancestors container)) := by
          apply List.map_congr_left
          intro c hc
          have hlt : jsSize c < jsSize container := jsSize_mem_toArray_fieldOf hc
          exact ih c (appendName ancestors container) f g (by omega) (by omega) (by omega)
        simp only [hmap]

/-- Fuel normalisation lemma for `traverseAux`. -/
theorem traverseAux_eq (fuel : ℕ) (container : JsValue) (ancestors : List String)
    (h : jsSize container ≤ fuel) :
    traverseAux fuel container ancestors = traverseContainer container ancestors :=
  traverseAux_congr (jsSize container) container ancestors fuel (jsSize container) h le_rfl le_rfl

/-- Unfolding equation of `traverseContainer` in the shape of the source
recursion. -/
theorem traverseContainer_eq (container : JsValue) (ancestors : List String) :
    traverseContainer container ancestors =
      match getField container "Placemark" with
      | none => none
      | some pm =>
        match seqSegs ((toArray pm).map (processPlacemark (appendName ancestors container))) with
        | none => none
        | some placemarkSegs =>
          match seqSegs ((toArray (fieldOf container "Folder")).map
              (fun f => traverseContainer f (appendName ancestors container))) with
          | none => none
          | some folderSegs => some (placemarkSegs ++ folderSegs) := by
  obtain ⟨s, hs⟩ : ∃ s, jsSize container = s + 1 :=
    ⟨jsSize container - 1, by have := jsSize_pos container; omega⟩
  conv_lhs => rw [traverseContainer, hs]
  simp only [traverseAux]
  match hpm : getField container "Placemark" with
  | none => rfl
  | some pm =>
    have hmap : (toArray (fieldOf container "Folder")).map
          (fun v => traverseAux s v (appendName ancestors container)) =
        (toArray (fieldOf container "Folder")).map
          (fun v => traverseContainer v (appendName ancestors container)) := by
      apply List.map_congr_left
      intro c hc
      have hlt : jsSize c < jsSize container := jsSize_mem_toArray_fieldOf hc
      exact traverseAux_eq s c (appendName ancestors container) (by omega)
    simp only [hmap]

/-- Source `collectRouteSegments`: guards the root with `isRecord` twice and
then traverses every `Document` entry with an empty breadcrumb. -/
def collectRouteSegments (kml : JsValue) : Option (List RouteSegment) :=
  if isRecord kml then
    let root := fieldOf kml "kml"
    if isRecord root then
      seqSegs ((toArray (fieldOf root "Document")).map (fun d => traverseContainer d []))
    else some []
  else some []

/-- Source `degreesToRadians`: `(value * Math.PI) / 180`. -/
noncomputable def degreesToRadians (value : ℚ) : ℝ :=
  ((value : ℝ) * Real.pi) / 180

/-- JavaScript `Math.atan2(y, x)` (signed zeros aside, which the call sites
cannot produce: both arguments are square roots). -/
noncomputable def atan2 (y x : ℝ) : ℝ :=
  if 0 < x then Real.arctan (y / x)
  else if x < 0 then
    if 0 ≤ y then Real.arctan (y / x) + Real.pi else Real.arctan (y / x) - Real.pi
  else if 0 < y then Real.pi / 2
  else if y < 0 then -(Real.pi / 2)
  else 0

/-- Source `haversineDistanceKm`: the haversine great-circle distance with
Earth radius 6371.0088 km. -/
noncomputable def haversineDistanceKm (pointA pointB : ReferencePoint) : ℝ :=
  let radiusKm : ℝ := 6371.0088
  let lat1 := degreesToRadians pointA.latitude
  let lon1 := degreesToRadians pointA.longitude
  let lat2 := degreesToRadians pointB.latitude
  let lon2 := degreesToRadians pointB.longitude
  let deltaLat := lat2 - lat1
  let deltaLon := lon2 - lon1
  let sinLat := Real.sin (deltaLat / 2)
  let sinLon := Real.sin (deltaLon / 2)
  let a := sinLat * sinLat + Real.cos lat1 * Real.cos lat2 * sinLon * sinLon
  let c := 2 * atan2 (Real.sqrt a) (Real.sqrt (1 - a))
  radiusKm * c

/-- Accumulator entry of the furthest-point scan of `runKmzAnalysis`. -/
structure FurthestCoordinate : Type where
  distanceKm : ℝ
  coordinate : Coordinate
  segment : RouteSegment
  index : ℕ

/-- Body of the inner loop of the scan: the accumulator is replaced when it
is empty or when the new distance is strictly greater. -/
noncomputable def updateFurthest (reference : ReferencePoint) (segment : RouteSegment)
    (index : ℕ) (coordinate : Coordinate) (furthest : Option FurthestCoordinate) :
    Option FurthestCoordinate :=
  let distanceKm := haversineDistanceKm reference coordinate.toReferencePoint
  match furthest with
  | none =>
    some { distanceKm := distanceKm, coordinate := coordinate, segment := segment, index := index }
  | some f =>
    if distanceKm > f.distanceKm then
      some { distanceKm := distanceKm, coordinate := coordinate, segment := segment, index := index }
    else some f

/-- Scan of one segment's coordinates, with their zero-based indices. -/
noncomputable def scanSegment (reference : ReferencePoint) (segment : RouteSegment)
    (acc : Option FurthestCoordinate) : Option FurthestCoordinate :=
  segment.coordinates.enum.foldl (fun acc p => updateFurthest reference segment p.1 p.2 acc) acc

/-- The furthest-point scan of `runKmzAnalysis` (`findFurthest` in the spec):
segments in extraction order, points in coordinate order, starting from an
empty accumulator. -/
noncomputable def findFurthest (reference : ReferencePoint) (segments : List RouteSegment) :
    Option FurthestCoordinate :=
  segments.foldl (fun acc segment => scanSegment reference segment acc) none

/-- All scanned (segment, index, point) triples, in traversal order. -/
def flatPoints (segments : List RouteSegment) : List (RouteSegment × ℕ × Coordinate) :=
  (segments.map (fun seg => seg.coordinates.enum.map (fun p => (seg, p.1, p.2)))).flatten

/-- Distance of a scanned triple from the reference point. -/
noncomputable def pointDistance (reference : ReferencePoint)
    (e : RouteSegment × ℕ × Coordinate) : ℝ :=
  haversineDistanceKm reference e.2.2.toReferencePoint

/-- The scan as a single fold over the flattened triple list. -/
noncomputable def scanList (reference : ReferencePoint)
    (l : List (RouteSegment × ℕ × Coordinate)) (acc : Option FurthestCoordinate) :
    Option FurthestCoordinate :=
  l.foldl (fun acc e => updateFurthest reference e.1 e.2.1 e.2.2 acc) acc

/-- The nested segment/coordinate loops equal the fold over `flatPoints`. -/
theorem findFurthest_eq_scanList (reference : ReferencePoint) (segments : List RouteSegment) :
    findFurthest reference segments = scanList reference (flatPoints segments) none := by
  suffices h : ∀ acc, segments.foldl (fun acc segment => scanSegment reference segment acc) acc =
      scanList reference (flatPoints segments) acc by
    exact h none
  induction segments with
  | nil => intro acc; rfl
  | cons seg rest ih =>
    intro acc
    simp only [List.foldl_cons, flatPoints, List.map_cons, List.flatten_cons]
    rw [ih]
    show scanList reference (flatPoints rest) (scanSegment reference seg acc) = _
    unfold scanList
    rw [List.foldl_append]
    congr 1
    unfold scanSegment
    rw [List.foldl_map]

/-- The scanned accumulator never becomes empty again. -/
theorem updateFurthest_some (reference : ReferencePoint) (segment : RouteSegment) (index : ℕ)
    (coordinate : Coordinate) (f : FurthestCoordinate) :
    ∃ g, updateFurthest reference segment index coordinate (some f) = some g := by
  by_cases hcmp : haversineDistanceKm reference coordinate.toReferencePoint > f.distanceKm
  · refine ⟨⟨haversineDistanceKm reference coordinate.toReferencePoint, coordinate, segment,
      index⟩, ?_⟩
    simp only [updateFurthest]
    rw [if_pos hcmp]
  · refine ⟨f, ?_⟩
    simp only [updateFurthest]
    rw [if_neg hcmp]

/-- A scan started on a non-empty accumulator stays non-empty. -/
theorem scanList_isSome (reference : ReferencePoint) (l : List (RouteSegment × ℕ × Coordinate))
    (f : FurthestCoordinate) : ∃ g, scanList reference l (some f) = some g := by
  induction l generalizing f with
  | nil => exact ⟨f, rfl⟩
  | cons e rest ih =>
    simp only [scanList, List.foldl_cons]
    obtain ⟨g, hg⟩ := updateFurthest_some reference e.1 e.2.1 e.2.2 f
    rw [hg]
    exact ih g

/-- The scan result is empty exactly on an empty list of points. -/
theorem scanList_none_iff (reference : ReferencePoint)
    (l : List (RouteSegment × ℕ × Coordinate)) :
    scanList reference l none = none ↔ l = [] := by
  constructor
  · intro h
    match l with
    | [] => rfl
    | e :: rest =>
      exfalso
      simp only [scanList, List.foldl_cons] at h
      have hupd : updateFurthest reference e.1 e.2.1 e.2.2 none =
          some ⟨haversineDistanceKm reference e.2.2.toReferencePoint, e.2.2, e.1, e.2.1⟩ := rfl
      rw [hupd] at h
      obtain ⟨g, hg⟩ :=
        scanList_isSome reference rest
          ⟨haversineDistanceKm reference e.2.2.toReferencePoint, e.2.2, e.1, e.2.1⟩
      simp only [scanList] at hg
      rw [hg] at h
      exact Option.noConfusion h
  · intro h
    subst h
    rfl

/-- Statement that `res` records the strictly-furthest scanned triple, the
first one in traversal order on exact ties. -/
def IsFirstMax (reference : ReferencePoint) (l : List (RouteSegment × ℕ × Coordinate))
    (res : FurthestCoordinate) : Prop :=
  res.distanceKm = pointDistance reference (res.segment, res.index, res.coordinate) ∧
  ∃ k : ℕ, l[k]? = some (res.segment, res.index, res.coordinate) ∧
    (∀ (j : ℕ) (e : RouteSegment × ℕ × Coordinate),
      l[j]? = some e → pointDistance reference e ≤ res.distanceKm) ∧
    (∀ (j : ℕ) (e : RouteSegment × ℕ × Coordinate),
      l[j]? = some e → j < k → pointDistance reference e < res.distanceKm)

/-- Invariant of the furthest-point fold: a produced result is the first
strict maximum of the scanned prefix. -/
theorem scanList_spec (reference : ReferencePoint)
    (l : List (RouteSegment × ℕ × Coordinate)) (res : FurthestCoordinate)
    (h : scanList reference l none = some res) : IsFirstMax reference l res := by
  induction l using List.reverseRecOn generalizing res with
  | nil => simp [scanList] at h
  | append_singleton l e ih =>
    obtain ⟨s, i, c⟩ := e
    have hstep : scanList reference (l ++ [(s, i, c)]) none =
        updateFurthest reference s i c (scanList reference l none) := by
      simp only [scanList, List.foldl_append, List.foldl_cons, List.foldl_nil]
    rw [hstep] at h
    cases hprev : scanList reference l none with
    | none =>
      rw [hprev] at h
      have hl : l = [] := (scanList_none_iff reference l).mp hprev
      subst hl
      have hres : res = ⟨haversineDistanceKm reference c.toReferencePoint, c, s, i⟩ := by
        simpa only [updateFurthest, Option.some.injEq] using h.symm
      subst hres
      refine ⟨rfl, 0, ?_, ?_, ?_⟩
      · simp [pointDistance]
      · intro j e hj
        match j with
        | 0 =>
          simp only [List.nil_append, List.getElem?_cons_zero, Option.some.injEq] at hj
          subst hj
          exact le_of_eq rfl
        | j + 1 => simp at hj
      · intro j e hj hlt
        exact absurd hlt (by omega)
    | some f =>
      rw [hprev] at h
      obtain ⟨hd, k, hk, hle, hlt⟩ := ih f hprev
      have hklen : k < l.length := by
        by_contra hge
        rw [List.getElem?_eq_none (by omega)] at hk
        exact Option.noConfusion hk
      by_cases hcmp : haversineDistanceKm reference c.toReferencePoint > f.distanceKm
      · have hres : res = ⟨haversineDistanceKm reference c.toReferencePoint, c, s, i⟩ := by
          simp only [updateFurthest, if_pos hcmp, Option.some.injEq] at h
          exact h.symm
        subst hres
        refine ⟨rfl, l.length, ?_, ?_, ?_⟩
        · rw [List.getElem?_append_right (by omega)]
          simp
        · intro j e hj
          by_cases hjl : j < l.length
          · rw [List.getElem?_append_left hjl] at hj
            exact le_trans (hle j e hj) (le_of_lt hcmp)
          · by_cases hjeq : j = l.length
            · subst hjeq
              rw [List.getElem?_append_right (by omega)] at hj
              simp only [Nat.sub_self, List.getElem?_cons_zero, Option.some.injEq] at hj
              subst hj
              exact le_of_eq rfl
            · rw [List.getElem?_eq_none (by simp; omega)] at hj
              exact Option.noConfusion hj
        · intro j e hj hjlt
          have hjl : j < l.length := by omega
          rw [List.getElem?_append_left hjl] at hj
          exact lt_of_le_of_lt (hle j e hj) hcmp
      · have hres : res = f := by
          simp only [updateFurthest, if_neg hcmp, Option.some.injEq] at h
          exact h.symm
        subst hres
        refine ⟨hd, k, ?_, ?_, ?_⟩
        · rw [List.getElem?_append_left hklen]
          exact hk
        · intro j e hj
          by_cases hjl : j < l.length
          · rw [List.getElem?_append_left hjl] at hj
            exact hle j e hj
          · by_cases hjeq : j = l.length
            · subst hjeq
              rw [List.getElem?_append_right (by omega)] at hj
              simp only [Nat.sub_self, List.getElem?_cons_zero, Option.some.injEq] at hj
              subst hj
              exact not_lt.mp hcmp
            · rw [List.getElem?_eq_none (by simp; omega)] at hj
              exact Option.noConfusion hj
        · intro j e hj hjlt
          rw [List.getElem?_append_left (by omega)] at hj
          exact hlt j e hj hjlt

/-- A character-list split never produces the empty list of chunks. -/
theorem splitChars_ne_nil (p : Char → Bool) (cs : List Char) : splitChars p cs ≠ [] := by
  induction cs with
  | nil => simp [splitChars]
  | cons c rest ih =>
    simp only [splitChars]
    by_cases hp : p c
    · simp [hp]
    · simp only [hp, Bool.false_eq_true, if_false]
      match hr : splitChars p rest with
      | [] => simp
      | chunk :: chunks => simp

/-- A JavaScript split always has a first part. -/
theorem jsSplitOn_ne_nil (sep : Char) (s : String) : jsSplitOn sep s ≠ [] := by
  unfold jsSplitOn
  intro h
  exact splitChars_ne_nil _ _ (List.map_eq_nil_iff.mp h)

/-- The empty string parses to NaN. -/
theorem jsParseFloat_empty : jsParseFloat "" = none := rfl

/-- Spec-side token parser, written from the specification's words: a token
is comma-separated `longitude,latitude[,altitude]`; it contributes a point
exactly when both longitude and latitude parse to finite numbers, and the
altitude is kept exactly when present and finite, otherwise `none`. -/
def specTokenPoint (token : String) : Option Coordinate :=
  let parts := jsSplitOn ',' (jsTrim token)
  match parts[0]?.bind jsParseFloat, parts[1]?.bind jsParseFloat with
  | some longitude, some latitude =>
    some { latitude := latitude, longitude := longitude,
           altitude := parts[2]?.bind jsParseFloat }
  | _, _ => none

/-- The source token loop body agrees with the spec-side description. -/
theorem parseToken_eq_spec (token : String) : parseToken token = specTokenPoint token := by
  unfold parseToken specTokenPoint
  by_cases htr : jsTrim token = ""
  · rw [if_pos htr, htr]
    rfl
  · rw [if_neg htr]
    obtain ⟨p0, rest, hps⟩ : ∃ p0 rest, jsSplitOn ',' (jsTrim token) = p0 :: rest := by
      match hs : jsSplitOn ',' (jsTrim token) with
      | [] => exact absurd hs (jsSplitOn_ne_nil ',' (jsTrim token))
      | p0 :: rest => exact ⟨p0, rest, rfl⟩
    rw [hps]
    cases rest with
    | nil =>
      simp only [List.getElem?_cons_zero, List.getElem?_cons_succ, List.getElem?_nil,
        Option.none_bind, Option.some_bind]
      cases jsParseFloat p0 <;> rfl
    | cons p1 rest2 =>
      simp only [List.getElem?_cons_zero, List.getElem?_cons_succ, List.getElem?_nil,
        Option.none_bind, Option.some_bind]
      cases h0 : jsParseFloat p0 with
      | none => cases jsParseFloat p1 <;> rfl
      | some lon =>
        cases h1 : jsParseFloat p1 with
        | none => rfl
        | some lat =>
          cases rest2 with
          | nil => rfl
          | cons p2 rest3 =>
            simp only [List.getElem?_cons_zero, Option.some_bind, Option.some.injEq]
            by_cases h2 : p2 = ""
            · subst h2
              rw [if_pos rfl, jsParseFloat_empty]
            · rw [if_neg h2]

/-- Spec-side reference-point parser, written from the specification's words:
at least two comma-separated parts, each trimmed, read latitude first and
longitude second, both finite, otherwise the whole parse fails. -/
def specParseReferencePoint (value : String) : Option ReferencePoint :=
  match (jsSplitOn ',' value).map jsTrim with
  | latPart :: lonPart :: _ =>
    match jsParseFloat latPart, jsParseFloat lonPart with
    | some latitude, some longitude => some { latitude := latitude, longitude := longitude }
    | _, _ => none
  | _ => none

/-- The source `parseReference` agrees with the spec-side description; in
particular the leading falsy-input check of the source changes nothing,
because the empty string splits into a single part. -/
theorem parseReference_eq_spec (value : String) :
    parseReference value = specParseReferencePoint value := by
  unfold parseReference specParseReferencePoint
  by_cases hv : value = ""
  · subst hv; rfl
  · rw [if_neg hv]
    match hs : (jsSplitOn ',' value).map jsTrim with
    | [] =>
      exact absurd (List.map_eq_nil_iff.mp hs) (jsSplitOn_ne_nil ',' value)
    | [p0] =>
      simp only [List.getElem?_cons_zero, List.getElem?_cons_succ, List.getElem?_nil]
    | p0 :: p1 :: rest =>
      simp only [List.getElem?_cons_zero, List.getElem?_cons_succ]

/-- Bridge between the kernel-friendly `mkRat` form and a division literal. -/
theorem mkRat_eq_div_num (n : ℤ) (d : ℕ) : (mkRat n d : ℚ) = (n : ℚ) / (d : ℚ) := by
  rw [Rat.mkRat_eq_div]

/-- C5: reference parsing succeeds with `{latitude, longitude}` (latitude
first, parts trimmed) exactly when the text has at least two comma-separated
parts whose first two components are finite numbers, and fails as a whole
otherwise; `"48.1,17.1"` parses, `"48.1"` and `"abc,17.1"` fail. -/
theorem C5_parseReference_spec :
    (∀ value : String, parseReference value = specParseReferencePoint value) ∧
    parseReference "48.1,17.1" = some { latitude := 481 / 10, longitude := 171 / 10 } ∧
    parseReference "48.1" = none ∧
    parseReference "abc,17.1" = none := by
  refine ⟨parseReference_eq_spec, ?_, by decide, by decide⟩
  have h : parseReference "48.1,17.1" = some ⟨mkRat 481 10, mkRat 171 10⟩ := by decide
  rw [h, show (mkRat 481 10 : ℚ) = 481 / 10 by rw [mkRat_eq_div_num]; norm_num,
    show (mkRat 171 10 : ℚ) = 171 / 10 by rw [mkRat_eq_div_num]; norm_num]

/-- C4: a coordinate token `longitude,latitude[,altitude]` contributes a
point exactly when longitude and latitude are both finite; the altitude is
kept exactly when present and finite, and is `none` otherwise (never NaN,
never zero); `"17.1,48.1,100"`, `"17.1,48.1"` and `"notanumber,48.1"` behave
as the specification's examples state. -/
theorem C4_parseCoordinates_tokens :
    (∀ token : String, parseToken token = specTokenPoint token) ∧
    parseCoordinates (vStr "17.1,48.1,100") =
      [{ latitude := 481 / 10, longitude := 171 / 10, altitude := some 100 }] ∧
    parseCoordinates (vStr "17.1,48.1") =
      [{ latitude := 481 / 10, longitude := 171 / 10, altitude := none }] ∧
    parseCoordinates (vStr "notanumber,48.1") = [] := by
  refine ⟨parseToken_eq_spec, ?_, ?_, by decide⟩
  · have h : parseCoordinates (vStr "17.1,48.1,100") =
        [{ latitude := mkRat 481 10, longitude := mkRat 171 10, altitude := some 100 }] := by
      decide
    rw [h, show (mkRat 481 10 : ℚ) = 481 / 10 by rw [mkRat_eq_div_num]; norm_num,
      show (mkRat 171 10 : ℚ) = 171 / 10 by rw [mkRat_eq_div_num]; norm_num]
  · have h : parseCoordinates (vStr "17.1,48.1") =
        [{ latitude := mkRat 481 10, longitude := mkRat 171 10, altitude := none }] := by
      decide
    rw [h, show (mkRat 481 10 : ℚ) = 481 / 10 by rw [mkRat_eq_div_num]; norm_num,
      show (mkRat 171 10 : ℚ) = 171 / 10 by rw [mkRat_eq_div_num]; norm_num]

/-- C1: the furthest-point scan returns the (segment, point, index, distance)
entry of the point with the strictly greatest distance from the reference
over all points in traversal order (segments in extraction order, points in
coordinate order); on exact ties the first point in traversal order wins,
because the running best is replaced only under strict comparison; the result
is absent exactly when there are no points. -/
theorem C1_findFurthest_first_strict_max (reference : ReferencePoint)
    (segments : List RouteSegment) :
    (findFurthest reference segments = none ↔ flatPoints segments = []) ∧
    ∀ res, findFurthest reference segments = some res →
      IsFirstMax reference (flatPoints segments) res := by
  rw [findFurthest_eq_scanList]
  exact ⟨scanList_none_iff reference _, fun res h => scanList_spec reference _ res h⟩

/-- Witness for C1 at a one-point input: the scan returns that point with its
distance, and it is the first strict maximum. -/
theorem C1_findFurthest_first_strict_max_witness :
    IsFirstMax ⟨0, 0⟩ (flatPoints [⟨"w", [⟨⟨1, 2⟩, none⟩]⟩])
      ⟨haversineDistanceKm ⟨0, 0⟩ ⟨1, 2⟩, ⟨⟨1, 2⟩, none⟩, ⟨"w", [⟨⟨1, 2⟩, none⟩]⟩, 0⟩ :=
  (C1_findFurthest_first_strict_max ⟨0, 0⟩ [⟨"w", [⟨⟨1, 2⟩, none⟩]⟩]).2 _ rfl

/-- Inversion for `seqSegs`: every member of a successfully combined segment
list comes from one successful item. -/
theorem seqSegs_mem {opts : List (Option (List RouteSegment))} {segs : List RouteSegment}
    (h : seqSegs opts = some segs) {seg : RouteSegment} (hm : seg ∈ segs) :
    ∃ part, some part ∈ opts ∧ seg ∈ part := by
  induction opts generalizing segs with
  | nil =>
    injection h with h
    subst h
    simp at hm
  | cons o rest ih =>
    match o with
    | none => exact Option.noConfusion h
    | some xs =>
      simp only [seqSegs] at h
      cases hr : seqSegs rest with
      | none => rw [hr] at h; simp at h
      | some ys =>
        rw [hr] at h
        simp only [Option.map, Option.some.injEq] at h
        subst h
        rcases List.mem_append.mp hm with hx | hy
        · exact ⟨xs, by simp, hx⟩
        · obtain ⟨part, hp, hsp⟩ := ih hr hy
          exact ⟨part, by simp [hp], hsp⟩

/-- A segment emitted by the line-string loop has non-empty coordinates. -/
theorem processLineString_nonempty {total : ℕ} {breadcrumb : List String} {idx : ℕ}
    {ls : JsValue} {segs : List RouteSegment}
    (h : processLineString total breadcrumb idx ls = some segs) :
    ∀ seg ∈ segs, seg.coordinates ≠ [] := by
  intro seg hm
  unfold processLineString at h
  match hget : getField ls "coordinates" with
  | none => rw [hget] at h; exact Option.noConfusion h
  | some raw =>
    rw [hget] at h
    dsimp only at h
    by_cases hempty : (parseCoordinates raw).isEmpty
    · rw [if_pos hempty] at h
      simp only [Option.some.injEq] at h
      subst h
      simp at hm
    · rw [if_neg hempty] at h
      simp only [Option.some.injEq] at h
      subst h
      simp only [List.mem_singleton] at hm
      subst hm
      simpa [List.isEmpty_iff] using hempty

/-- A segment emitted for one placemark has non-empty coordinates. -/
theorem processPlacemark_nonempty {scopedAncestors : List String} {placemark : JsValue}
    {segs : List RouteSegment} (h : processPlacemark scopedAncestors placemark = some segs) :
    ∀ seg ∈ segs, seg.coordinates ≠ [] := by
  intro seg hm
  unfold processPlacemark at h
  obtain ⟨part, hp, hsp⟩ := seqSegs_mem h hm
  obtain ⟨p, _, hps⟩ := List.mem_map.mp hp
  exact processLineString_nonempty hps seg hsp

/-- Every segment produced by a container traversal has non-empty
coordinates. -/
theorem traverseContainer_nonempty (n : ℕ) (container : JsValue) (ancestors : List String)
    (segs : List RouteSegment) (hn : jsSize container ≤ n)
    (h : traverseContainer container ancestors = some segs) :
    ∀ seg ∈ segs, seg.coordinates ≠ [] := by
  induction n generalizing container ancestors segs with
  | zero => exact absurd (Nat.lt_of_lt_of_le (jsSize_pos container) hn) (by omega)
  | succ n ih =>
    intro seg hm
    rw [traverseContainer_eq] at h
    match hpm : getField container "Placemark" with
    | none => rw [hpm] at h; exact Option.noConfusion h
    | some pm =>
      rw [hpm] at h
      dsimp only at h
      cases hps : seqSegs ((toArray pm).map (processPlacemark (appendName ancestors container)))
        with
      | none => rw [hps] at h; exact Option.noConfusion h
      | some placemarkSegs =>
        rw [hps] at h
        dsimp only at h
        cases hfs : seqSegs ((toArray (fieldOf container "Folder")).map
            (fun f => traverseContainer f (appendName ancestors container))) with
        | none => rw [hfs] at h; exact Option.noConfusion h
        | some folderSegs =>
          rw [hfs] at h
          simp only [Option.some.injEq] at h
          subst h
          rcases List.mem_append.mp hm with hx | hy
          · obtain ⟨part, hp, hsp⟩ := seqSegs_mem hps hx
            obtain ⟨p, _, hpeq⟩ := List.mem_map.mp hp
            exact processPlacemark_nonempty hpeq seg hsp
          · obtain ⟨part, hp, hsp⟩ := seqSegs_mem hfs hy
            obtain ⟨f, hfm, hfeq⟩ := List.mem_map.mp hp
            have hlt : jsSize f < jsSize container := jsSize_mem_toArray_fieldOf hfm
            exact ih f (appendName ancestors container) part (by omega) hfeq seg hsp

/-- Every segment extracted from a document tree has non-empty coordinates. -/
theorem collectRouteSegments_nonempty {kml : JsValue} {segs : List RouteSegment}
    (h : collectRouteSegments kml = some segs) : ∀ seg ∈ segs, seg.coordinates ≠ [] := by
  intro seg hm
  unfold collectRouteSegments at h
  by_cases hk : isRecord kml
  · rw [if_pos hk] at h
    by_cases hr : isRecord (fieldOf kml "kml")
    · rw [if_pos hr] at h
      obtain ⟨part, hp, hsp⟩ := seqSegs_mem h hm
      obtain ⟨d, _, hdeq⟩ := List.mem_map.mp hp
      exact traverseContainer_nonempty (jsSize d) d [] part le_rfl hdeq seg hsp
    · rw [if_neg hr] at h
      simp only [Option.some.injEq] at h
      subst h
      simp at hm
  · rw [if_neg hk] at h
    simp only [Option.some.injEq] at h
    subst h
    simp at hm

/-- C10: every extracted route segment has a non-empty coordinate sequence;
the furthest-point scan is empty exactly when there are zero points, and so
any non-empty extractor output produces a present result (the first point
always replaces the empty accumulator). -/
theorem C10_nonempty_segments_scan_present :
    (∀ (kml : JsValue) (segs : List RouteSegment), collectRouteSegments kml = some segs →
      ∀ seg ∈ segs, seg.coordinates ≠ []) ∧
    (∀ (reference : ReferencePoint) (segments : List RouteSegment),
      findFurthest reference segments = none ↔ flatPoints segments = []) ∧
    (∀ (kml : JsValue) (segs : List RouteSegment) (reference : ReferencePoint),
      collectRouteSegments kml = some segs → segs ≠ [] →
      (findFurthest reference segs).isSome = true) := by
  refine ⟨fun kml segs h => collectRouteSegments_nonempty h, ?_, ?_⟩
  · intro reference segments
    rw [findFurthest_eq_scanList]
    exact scanList_none_iff reference _
  · intro kml segs reference h hne
    obtain ⟨s, rest, rfl⟩ : ∃ s rest, segs = s :: rest := by
      match segs, hne with
      | s :: rest, _ => exact ⟨s, rest, rfl⟩
    have hcoords : s.coordinates ≠ [] :=
      collectRouteSegments_nonempty h s (by simp)
    have hlen : 0 < (flatPoints (s :: rest)).length := by
      have h1 : s.coordinates.length ≠ 0 := fun h0 => hcoords (List.length_eq_zero.mp h0)
      simp only [flatPoints, List.map_cons, List.flatten_cons, List.length_append,
        List.length_map, List.enum_length]
      omega
    rw [findFurthest_eq_scanList]
    cases hsc : scanList reference (flatPoints (s :: rest)) none with
    | none =>
      have := (scanList_none_iff reference _).mp hsc
      rw [this] at hlen
      simp at hlen
    | some f => rfl

/-- Witness for C10: a concrete one-segment extraction yields a present scan
result. -/
theorem C10_nonempty_segments_scan_present_witness :
    (findFurthest ⟨0, 0⟩ [⟨"NZ / Coast", [⟨⟨-41, 174⟩, none⟩]⟩]).isSome = true :=
  C10_nonempty_segments_scan_present.2.2
    (vObj [("kml", vObj [("Document", vObj [("Folder",
      vObj [("name", vStr "NZ"), ("Placemark",
        vObj [("name", vStr "Coast"),
              ("LineString", vObj [("coordinates", vStr "174,-41")])])])])])])
    [⟨"NZ / Coast", [⟨⟨-41, 174⟩, none⟩]⟩] ⟨0, 0⟩ (by decide) (by decide)

mutual

/-- Trees free of the values on which property access can throw during
extraction: no `null` anywhere, and no `undefined` among array elements
(an `undefined` object-field value is harmless: `toArray` turns it into the
empty sequence before any property of it is read). -/
def cleanTree : JsValue → Bool
  | vNull => false
  | vArr es => cleanL es
  | vObj fs => cleanF fs
  | _ => true

/-- Clean array elements: no `undefined` element, all elements clean. -/
def cleanL : List JsValue → Bool
  | [] => true
  | v :: vs => (match v with | vUndef => false | _ => true) && cleanTree v && cleanL vs

/-- Clean object fields. -/
def cleanF : List (String × JsValue) → Bool
  | [] => true
  | p :: fs => cleanTree p.2 && cleanF fs

end

/-- A clean tree is not `null`. -/
theorem cleanTree_ne_null {v : JsValue} (h : cleanTree v = true) : v ≠ vNull := by
  intro hv
  subst hv
  simp [cleanTree] at h

/-- A looked-up field of a clean field list is `undefined` or clean. -/
theorem cleanF_lookupField {fs : List (String × JsValue)} (h : cleanF fs = true) (key : String) :
    lookupField fs key = vUndef ∨ cleanTree (lookupField fs key) = true := by
  induction fs with
  | nil => exact Or.inl rfl
  | cons p rest ih =>
    obtain ⟨k, v⟩ := p
    simp only [cleanF, Bool.and_eq_true] at h
    by_cases hk : k = key
    · simp only [lookupField, if_pos hk]
      exact Or.inr h.1
    · simp only [lookupField, if_neg hk]
      exact ih h.2

/-- A member of a clean element list is clean and not `undefined`. -/
theorem cleanL_mem {es : List JsValue} (h : cleanL es = true) {e : JsValue} (he : e ∈ es) :
    cleanTree e = true ∧ e ≠ vUndef := by
  induction es with
  | nil => simp at he
  | cons x rest ih =>
    simp only [cleanL, Bool.and_eq_true] at h
    rcases List.mem_cons.mp he with rfl | hm
    · refine ⟨h.1.2, ?_⟩
      intro hx
      subst hx
      simp at h
    · exact ih h.2 hm

/-- Elements delivered by `toArray` of a property of a clean value are clean
and not `undefined`. -/
theorem clean_toArray_fieldOf {v : JsValue} (h : cleanTree v = true) {key : String}
    {e : JsValue} (he : e ∈ toArray (fieldOf v key)) : cleanTree e = true ∧ e ≠ vUndef := by
  match v with
  | vUndef | vNull | vBool _ | vNum _ | vStr _ | vArr _ =>
    simp [fieldOf, toArray] at he
  | vObj fs =>
    simp only [fieldOf] at he
    simp only [cleanTree] at h
    rcases cleanF_lookupField h key with hu | hc
    · rw [hu] at he; simp [toArray] at he
    · match hlk : lookupField fs key with
      | vUndef => rw [hlk] at he; simp [toArray] at he
      | vArr es =>
        rw [hlk] at he
        rw [hlk] at hc
        simp only [toArray] at he
        simp only [cleanTree] at hc
        exact cleanL_mem hc he
      | vNull | vBool _ | vNum _ | vStr _ | vObj _ =>
        rw [hlk] at he
        rw [hlk] at hc
        simp only [toArray, List.mem_singleton] at he
        subst he
        exact ⟨hc, by intro hx; exact JsValue.noConfusion hx⟩

/-- `getField` cannot throw on a clean tree. -/
theorem getField_isSome {v : JsValue} (hnull : v ≠ vNull) (hundef : v ≠ vUndef) (key : String) :
    getField v key = some (fieldOf v key) := by
  match v with
  | vNull => exact absurd rfl hnull
  | vUndef => exact absurd rfl hundef
  | vBool _ | vNum _ | vStr _ | vArr _ | vObj _ => rfl

/-- Line geometries collected under a clean placemark are clean and not
`undefined`. -/
theorem clean_collectLineStrings (n : ℕ) (p : JsValue) (hn : jsSize p ≤ n)
    (h : cleanTree p = true) :
    ∀ ls ∈ collectLineStrings p, cleanTree ls = true ∧ ls ≠ vUndef := by
  induction n generalizing p with
  | zero => exact absurd (Nat.lt_of_lt_of_le (jsSize_pos p) hn) (by omega)
  | succ n ih =>
    intro ls hls
    rw [collectLineStrings_eq] at hls
    by_cases hfal : jsFalsy p
    · rw [if_pos hfal] at hls; simp at hls
    · rw [if_neg hfal] at hls
      rcases List.mem_append.mp hls with hd | hnest
      · exact clean_toArray_fieldOf h hd
      · obtain ⟨sub, hsub, hmem⟩ := List.mem_flatten.mp hnest
        obtain ⟨mg, hmg, hmapeq⟩ := List.mem_map.mp hsub
        obtain ⟨hmgclean, _⟩ := clean_toArray_fieldOf h hmg
        have hlt : jsSize mg < jsSize p := jsSize_mem_toArray_fieldOf hmg
        subst hmapeq
        exact ih mg (by omega) hmgclean ls hmem

/-- The line-string loop body cannot throw on a clean line geometry. -/
theorem processLineString_isSome {ls : JsValue} (hnull : ls ≠ vNull) (hundef : ls ≠ vUndef)
    (total : ℕ) (breadcrumb : List String) (idx : ℕ) :
    ∃ segs, processLineString total breadcrumb idx ls = some segs := by
  unfold processLineString
  rw [getField_isSome hnull hundef]
  dsimp only
  by_cases hempty : (parseCoordinates (fieldOf ls "coordinates")).isEmpty
  · exact ⟨[], by rw [if_pos hempty]⟩
  · exact ⟨_, by rw [if_neg hempty]⟩

/-- `seqSegs` succeeds when every item succeeds. -/
theorem seqSegs_isSome {opts : List (Option (List RouteSegment))}
    (h : ∀ o ∈ opts, o.isSome = true) : ∃ segs, seqSegs opts = some segs := by
  induction opts with
  | nil => exact ⟨[], rfl⟩
  | cons o rest ih =>
    have ho := h o (by simp)
    match o, ho with
    | none, ho2 => simp at ho2
    | some xs, _ =>
      obtain ⟨segs, hsegs⟩ := ih (fun o ho2 => h o (by simp [ho2]))
      refine ⟨xs ++ segs, ?_⟩
      simp only [seqSegs, hsegs, Option.map]

/-- The payload of an enumerated pair is a member of the underlying list. -/
theorem snd_mem_of_mem_enum {α : Type _} {l : List α} {i : ℕ} {x : α}
    (h : (i, x) ∈ l.enum) : x ∈ l :=
  List.getElem?_mem (List.mk_mem_enum_iff_getElem?.mp h)

/-- Processing a clean placemark cannot throw. -/
theorem processPlacemark_isSome {p : JsValue} (h : cleanTree p = true)
    (scopedAncestors : List String) :
    ∃ segs, processPlacemark scopedAncestors p = some segs := by
  unfold processPlacemark
  apply seqSegs_isSome
  intro o ho
  obtain ⟨⟨i, ls⟩, hq, hqeq⟩ := List.mem_map.mp ho
  have hql : ls ∈ collectLineStrings p := snd_mem_of_mem_enum hq
  obtain ⟨hclean, hundef⟩ := clean_collectLineStrings (jsSize p) p le_rfl h ls hql
  obtain ⟨segs, hsegs⟩ :=
    processLineString_isSome (cleanTree_ne_null hclean) hundef
      (collectLineStrings p).length (appendName scopedAncestors p) i
  rw [← hqeq]
  dsimp only
  rw [hsegs]
  rfl

/-- Traversal of a clean, non-`undefined` container cannot throw. -/
theorem traverseContainer_isSome (n : ℕ) (container : JsValue) (ancestors : List String)
    (hn : jsSize container ≤ n) (hclean : cleanTree container = true)
    (hundef : container ≠ vUndef) :
    ∃ segs, traverseContainer container ancestors = some segs := by
  induction n generalizing container ancestors with
  | zero => exact absurd (Nat.lt_of_lt_of_le (jsSize_pos container) hn) (by omega)
  | succ n ih =>
    rw [traverseContainer_eq]
    rw [getField_isSome (cleanTree_ne_null hclean) hundef]
    dsimp only
    obtain ⟨placemarkSegs, hps⟩ : ∃ segs,
        seqSegs ((toArray (fieldOf container "Placemark")).map
          (processPlacemark (appendName ancestors container))) = some segs := by
      apply seqSegs_isSome
      intro o ho
      obtain ⟨p, hp, hpeq⟩ := List.mem_map.mp ho
      obtain ⟨hpclean, _⟩ := clean_toArray_fieldOf hclean hp
      obtain ⟨segs, hsegs⟩ :=
        processPlacemark_isSome hpclean (appendName ancestors container)
      rw [← hpeq, hsegs]
      rfl
    rw [hps]
    dsimp only
    obtain ⟨folderSegs, hfs⟩ : ∃ segs,
        seqSegs ((toArray (fieldOf container "Folder")).map
          (fun f => traverseContainer f (appendName ancestors container))) = some segs := by
      apply seqSegs_isSome
      intro o ho
      obtain ⟨f, hf, hfeq⟩ := List.mem_map.mp ho
      obtain ⟨hfclean, hfundef⟩ := clean_toArray_fieldOf hclean hf
      have hlt : jsSize f < jsSize container := jsSize_mem_toArray_fieldOf hf
      obtain ⟨segs, hsegs⟩ :=
        ih f (appendName ancestors container) (by omega) hfclean hfundef
      rw [← hfeq, hsegs]
      rfl
    rw [hfs]
    exact ⟨placemarkSegs ++ folderSegs, rfl⟩

/-- Amended C6: the extractor never throws on a tree that contains no `null`
value and no `undefined` array element — unexpected shapes are treated as
absent and extraction proceeds.  (The unrestricted claim is refuted by
`C6_extractor_total_counterexample`: reading a property of `null` throws.) -/
theorem C6_extractor_total_on_clean_trees (kml : JsValue) (h : cleanTree kml = true) :
    ∃ segs, collectRouteSegments kml = some segs := by
  unfold collectRouteSegments
  by_cases hk : isRecord kml
  · rw [if_pos hk]
    by_cases hr : isRecord (fieldOf kml "kml")
    · rw [if_pos hr]
      apply seqSegs_isSome
      intro o ho
      obtain ⟨d, hd, hdeq⟩ := List.mem_map.mp ho
      have hrootclean : cleanTree (fieldOf kml "kml") = true := by
        match kml, hk with
        | vArr es, _ =>
          simp [fieldOf, cleanTree]
        | vObj fs, _ =>
          simp only [cleanTree] at h
          simp only [fieldOf] at hr ⊢
          rcases cleanF_lookupField h "kml" with hu | hc
          · rw [hu] at hr
            simp [isRecord] at hr
          · exact hc
      obtain ⟨hdclean, hdundef⟩ := clean_toArray_fieldOf hrootclean hd
      obtain ⟨segs, hsegs⟩ := traverseContainer_isSome (jsSize d) d [] le_rfl hdclean hdundef
      rw [← hdeq, hsegs]
      rfl
    · rw [if_neg hr]
      exact ⟨[], rfl⟩
  · rw [if_neg hk]
    exact ⟨[], rfl⟩

/-- Witness for the amended C6 on a concrete clean tree. -/
theorem C6_extractor_total_on_clean_trees_witness :
    (collectRouteSegments (vObj [("kml", vObj [("Document",
      vObj [("Placemark", vObj [("name", vStr "Coast"),
        ("LineString", vObj [("coordinates", vStr "174,-41")])])])])])).isSome = true := by
  obtain ⟨segs, hsegs⟩ :=
    C6_extractor_total_on_clean_trees
      (vObj [("kml", vObj [("Document",
        vObj [("Placemark", vObj [("name", vStr "Coast"),
          ("LineString", vObj [("coordinates", vStr "174,-41")])])])])]) (by decide)
  rw [hsegs]
  rfl

/-- Counterexample to C6 as stated: on the structurally-unexpected tree
`{kml: {Document: null}}` the extractor reads `null.Placemark` and throws
(modelled by `none`), rather than treating the shape as absent. -/
theorem C6_extractor_total_counterexample :
    collectRouteSegments (vObj [("kml", vObj [("Document", vNull)])]) = none := by decide

/-- Name given to a segment, from the amended naming rule: the `(segment N)`
suffix is attached when the placemark yielded more than one line geometry in
total (empty ones included), `N` being the 1-based discovery position among
all of them, and the `"Unnamed route"` fallback replaces an empty final
label. -/
def segmentLabel (joined : String) (total : ℕ) (n : ℕ) : String :=
  let label := if 1 < total then joined ++ " (segment " ++ toString n ++ ")" else joined
  if label = "" then "Unnamed route" else label

/-- Spec-side description of the segments one placemark produces, written
from the amended naming rule. -/
def specPlacemarkSegments (scopedAncestors : List String) (p : JsValue) : List RouteSegment :=
  let breadcrumb := appendName scopedAncestors p
  let lineStrings := collectLineStrings p
  lineStrings.enum.filterMap (fun q =>
    let coordinates := parseCoordinates (fieldOf q.2 "coordinates")
    if coordinates.isEmpty then none
    else some { name := segmentLabel (String.intercalate " / " breadcrumb) lineStrings.length
                  (q.1 + 1),
                coordinates := coordinates })

/-- A successful `getField` returns the property value. -/
theorem getField_eq_some {v x : JsValue} {key : String} (h : getField v key = some x) :
    x = fieldOf v key := by
  match v, h with
  | vBool _, h | vNum _, h | vStr _, h | vArr _, h | vObj _, h =>
    exact (Option.some.injEq _ _ ▸ h).symm

/-- The line-string loop over any enumerated list realises the amended
naming rule. -/
theorem seqSegs_lineStrings (total : ℕ) (breadcrumb : List String)
    (l : List (ℕ × JsValue)) (segs : List RouteSegment)
    (h : seqSegs (l.map (fun q => processLineString total breadcrumb q.1 q.2)) = some segs) :
    segs = l.filterMap (fun q =>
      let coordinates := parseCoordinates (fieldOf q.2 "coordinates")
      if coordinates.isEmpty then none
      else some { name := segmentLabel (String.intercalate " / " breadcrumb) total (q.1 + 1),
                  coordinates := coordinates }) := by
  induction l generalizing segs with
  | nil =>
    injection h with h
    exact h.symm
  | cons q rest ih =>
    simp only [List.map_cons] at h
    cases hq : processLineString total breadcrumb q.1 q.2 with
    | none => rw [hq] at h; exact Option.noConfusion h
    | some part =>
      rw [hq] at h
      simp only [seqSegs] at h
      cases hr : seqSegs (rest.map (fun q => processLineString total breadcrumb q.1 q.2)) with
      | none => rw [hr] at h; exact Option.noConfusion h
      | some ys =>
        rw [hr] at h
        simp only [Option.map, Option.some.injEq] at h
        subst h
        rw [List.filterMap_cons]
        unfold processLineString at hq
        cases hget : getField q.2 "coordinates" with
        | none => rw [hget] at hq; exact Option.noConfusion hq
        | some raw =>
          rw [hget] at hq
          dsimp only at hq
          have hraw : raw = fieldOf q.2 "coordinates" := getField_eq_some hget
          subst hraw
          by_cases hempty : (parseCoordinates (fieldOf q.2 "coordinates")).isEmpty
          · rw [if_pos hempty] at hq
            simp only [Option.some.injEq] at hq
            subst hq
            rw [if_pos hempty]
            simpa using ih ys hr
          · rw [if_neg hempty] at hq
            simp only [Option.some.injEq] at hq
            subst hq
            rw [if_neg hempty]
            simp only [List.singleton_append, List.cons.injEq]
            exact ⟨rfl, ih ys hr⟩

/-- Amended C3: a successful placemark extraction emits, for each non-empty
line geometry in discovery order, one segment named by `segmentLabel`: the
`" (segment N)"` suffix exactly when the placemark's total number of
discovered line geometries (including empty ones) exceeds one, with `N` the
1-based discovery position among all of them, and the `"Unnamed route"`
fallback only when the final label is empty.  The specification's two-track
example holds as stated. -/
theorem C3_segment_naming_amended :
    (∀ (scopedAncestors : List String) (p : JsValue) (segs : List RouteSegment),
      processPlacemark scopedAncestors p = some segs →
      segs = specPlacemarkSegments scopedAncestors p) ∧
    collectRouteSegments
      (vObj [("kml", vObj [("Document", vObj [("Placemark",
        vObj [("name", vStr "Track"),
              ("LineString", vArr [vObj [("coordinates", vStr "1,2")],
                                   vObj [("coordinates", vStr "3,4")]])])])])]) =
      some [{ name := "Track (segment 1)",
              coordinates := [{ latitude := 2, longitude := 1, altitude := none }] },
            { name := "Track (segment 2)",
              coordinates := [{ latitude := 4, longitude := 3, altitude := none }] }] := by
  constructor
  · intro scopedAncestors p segs h
    unfold processPlacemark at h
    exact seqSegs_lineStrings _ _ _ _ h
  · decide

/-- Witness for the amended C3 at a concrete placemark with one empty and
one non-empty line geometry. -/
theorem C3_segment_naming_amended_witness :
    [({ name := "Track (segment 2)",
        coordinates := [{ latitude := 2, longitude := 1, altitude := none }] } : RouteSegment)] =
      specPlacemarkSegments []
        (vObj [("name", vStr "Track"),
               ("LineString", vArr [vObj [("coordinates", vStr "")],
                                    vObj [("coordinates", vStr "1,2")]])]) :=
  C3_segment_naming_amended.1 []
    (vObj [("name", vStr "Track"),
           ("LineString", vArr [vObj [("coordinates", vStr "")],
                                vObj [("coordinates", vStr "1,2")]])])
    [{ name := "Track (segment 2)",
       coordinates := [{ latitude := 2, longitude := 1, altitude := none }] }] (by decide)

/-- Counterexample to C3 as stated: a placemark named `"Track"` with two
discovered line geometries of which exactly one is non-empty yields the
segment name `"Track (segment 2)"`, not the plain breadcrumb `"Track"`: the
suffix condition counts all discovered geometries, empty ones included. -/
theorem C3_segment_naming_counterexample :
    ((collectLineStrings
        (vObj [("name", vStr "Track"),
               ("LineString", vArr [vObj [("coordinates", vStr "")],
                                    vObj [("coordinates", vStr "1,2")]])])).filter
      (fun ls => !(parseCoordinates (fieldOf ls "coordinates")).isEmpty)).length = 1 ∧
    collectRouteSegments
      (vObj [("kml", vObj [("Document", vObj [("Placemark",
        vObj [("name", vStr "Track"),
              ("LineString", vArr [vObj [("coordinates", vStr "")],
                                   vObj [("coordinates", vStr "1,2")]])])])])]) =
      some [{ name := "Track (segment 2)",
              coordinates := [{ latitude := 2, longitude := 1, altitude := none }] }] ∧
    "Track (segment 2)" ≠ "Track" := by decide

/-- C7: a container (or placemark) contributes to the breadcrumb exactly its
resolved name, and only when that name is present and non-empty — otherwise
the breadcrumb is unchanged; traversal processes a container's own placemarks
first and then recurses into its folders with the container-level breadcrumb
(placemark names are not passed down), concatenating the outputs in document
order; the specification's `"NZ / Coast"` example holds, and a nested
two-folder document is emitted in depth-first document order. -/
theorem C7_breadcrumb_scoping_and_order :
    (∀ (parts : List String) (c : JsValue),
      appendName parts c = parts ∨
      ∃ s, s ≠ "" ∧ asString (fieldOf c "name") = some s ∧ appendName parts c = parts ++ [s]) ∧
    (∀ (container : JsValue) (ancestors : List String),
      traverseContainer container ancestors =
        match getField container "Placemark" with
        | none => none
        | some pm =>
          match seqSegs ((toArray pm).map (processPlacemark (appendName ancestors container)))
            with
          | none => none
          | some placemarkSegs =>
            match seqSegs ((toArray (fieldOf container "Folder")).map
                (fun f => traverseContainer f (appendName ancestors container))) with
            | none => none
            | some folderSegs => some (placemarkSegs ++ folderSegs)) ∧
    collectRouteSegments
      (vObj [("kml", vObj [("Document", vObj [("Folder",
        vObj [("name", vStr "NZ"), ("Placemark",
          vObj [("name", vStr "Coast"),
                ("LineString", vObj [("coordinates", vStr "174,-41")])])])])])]) =
      some [{ name := "NZ / Coast",
              coordinates := [{ latitude := -41, longitude := 174, altitude := none }] }] ∧
    collectRouteSegments
      (vObj [("kml", vObj [("Document", vObj [
        ("Placemark", vObj [("name", vStr "A"),
          ("LineString", vObj [("coordinates", vStr "1,1")])]),
        ("Folder", vArr [
          vObj [("name", vStr "F1"),
            ("Placemark", vObj [("name", vStr "B"),
              ("LineString", vObj [("coordinates", vStr "2,2")])]),
            ("Folder", vObj [("name", vStr "F11"),
              ("Placemark", vObj [("name", vStr "C"),
                ("LineString", vObj [("coordinates", vStr "3,3")])])])],
          vObj [("name", vStr "F2"),
            ("Placemark", vObj [("name", vStr "D"),
              ("LineString", vObj [("coordinates", vStr "4,4")])])]])])])]) =
      some [{ name := "A", coordinates := [{ latitude := 1, longitude := 1, altitude := none }] },
            { name := "F1 / B",
              coordinates := [{ latitude := 2, longitude := 2, altitude := none }] },
            { name := "F1 / F11 / C",
              coordinates := [{ latitude := 3, longitude := 3, altitude := none }] },
            { name := "F2 / D",
              coordinates := [{ latitude := 4, longitude := 4, altitude := none }] }] := by
  refine ⟨?_, traverseContainer_eq, by decide, by decide⟩
  intro parts c
  unfold appendName
  by_cases hfal : jsFalsy c
  · rw [if_pos hfal]
    exact Or.inl rfl
  · rw [if_neg hfal]
    cases hname : asString (fieldOf c "name") with
    | none => exact Or.inl rfl
    | some s =>
      dsimp only
      by_cases hs : s = ""
      · rw [if_pos hs]
        exact Or.inl rfl
      · rw [if_neg hs]
        exact Or.inr ⟨s, hs, rfl, rfl⟩

/-- Squares of sines of opposite half-differences agree. -/
theorem sin_half_sq_comm (x y : ℝ) :
    Real.sin ((x - y) / 2) * Real.sin ((x - y) / 2) =
      Real.sin ((y - x) / 2) * Real.sin ((y - x) / 2) := by
  rw [show (x - y) / 2 = -((y - x) / 2) by ring, Real.sin_neg, neg_mul_neg]

/-- C8: the distance vanishes on the diagonal and is symmetric. -/
theorem C8_distance_zero_diag_symm :
    (∀ a : ReferencePoint, haversineDistanceKm a a = 0) ∧
    (∀ a b : ReferencePoint, haversineDistanceKm a b = haversineDistanceKm b a) := by
  constructor
  · intro a
    unfold haversineDistanceKm
    dsimp only
    rw [sub_self, sub_self, zero_div, Real.sin_zero]
    rw [show (0 : ℝ) * 0 + Real.cos (degreesToRadians a.latitude) *
        Real.cos (degreesToRadians a.latitude) * 0 * 0 = 0 by ring]
    rw [Real.sqrt_zero, sub_zero, Real.sqrt_one]
    unfold atan2
    rw [if_pos one_pos, zero_div, Real.arctan_zero]
    ring
  · intro a b
    unfold haversineDistanceKm
    dsimp only
    have hlat : Real.sin ((degreesToRadians b.latitude - degreesToRadians a.latitude) / 2) =
        -Real.sin ((degreesToRadians a.latitude - degreesToRadians b.latitude) / 2) := by
      rw [show (degreesToRadians b.latitude - degreesToRadians a.latitude) / 2 =
        -((degreesToRadians a.latitude - degreesToRadians b.latitude) / 2) by ring, Real.sin_neg]
    have hlon : Real.sin ((degreesToRadians b.longitude - degreesToRadians a.longitude) / 2) =
        -Real.sin ((degreesToRadians a.longitude - degreesToRadians b.longitude) / 2) := by
      rw [show (degreesToRadians b.longitude - degreesToRadians a.longitude) / 2 =
        -((degreesToRadians a.longitude - degreesToRadians b.longitude) / 2) by ring,
        Real.sin_neg]
    rw [hlat, hlon]
    ring_nf

/-- Spec-side haversine formula, written from the specification's words:
degrees to radians, half-angle sine products
`sin^2(dLat/2) + cos(lat1) cos(lat2) sin^2(dLon/2)`,
`c = 2 atan2(sqrt h, sqrt(1-h))`, scaled by the Earth radius 6371.0088 km. -/
noncomputable def specHaversineKm (a b : ReferencePoint) : ℝ :=
  let lat1 := degreesToRadians a.latitude
  let lat2 := degreesToRadians b.latitude
  let dLat := lat2 - lat1
  let dLon := degreesToRadians b.longitude - degreesToRadians a.longitude
  let h := Real.sin (dLat / 2) ^ 2 + Real.cos lat1 * Real.cos lat2 * Real.sin (dLon / 2) ^ 2
  6371.0088 * (2 * atan2 (Real.sqrt h) (Real.sqrt (1 - h)))

/-- The source distance realises the spec-side haversine formula. -/
theorem haversineDistanceKm_eq_spec (a b : ReferencePoint) :
    haversineDistanceKm a b = specHaversineKm a b := by
  unfold haversineDistanceKm specHaversineKm
  dsimp only
  rw [pow_two, pow_two]
  ring_nf

/-!
Degree-8 Taylor bounds for sine and cosine, used to certify the numeric
range of the haversine distance at the specification's sample coordinates.
-/

section TaylorBounds

open Complex Finset

theorem taylor8_sum_add (x : ℝ) :
    (∑ m ∈ range 8, ((x : ℂ) * I) ^ m / m.factorial) +
      (∑ m ∈ range 8, (-(x : ℂ) * I) ^ m / m.factorial) =
      2 - (x : ℂ) ^ 2 + (x : ℂ) ^ 4 / 12 - (x : ℂ) ^ 6 / 360 := by
  have h2 : (I : ℂ) ^ 2 = -1 := Complex.I_sq
  have h3 : (I : ℂ) ^ 3 = -I := by rw [pow_succ, h2, neg_one_mul]
  have h4 : (I : ℂ) ^ 4 = 1 := by rw [pow_succ, h3, neg_mul, Complex.I_mul_I, neg_neg]
  have h5 : (I : ℂ) ^ 5 = I := by rw [pow_succ, h4, one_mul]
  have h6 : (I : ℂ) ^ 6 = -1 := by rw [pow_succ, h5, Complex.I_mul_I]
  have h7 : (I : ℂ) ^ 7 = -I := by rw [pow_succ, h6, neg_one_mul]
  simp only [Finset.sum_range_succ, Finset.range_zero, Finset.sum_empty, Nat.factorial, mul_pow,
    h2, h3, h4, h5, h6, h7]
  push_cast
  ring

theorem taylor8_sum_sub (x : ℝ) :
    ((∑ m ∈ range 8, (-(x : ℂ) * I) ^ m / m.factorial) -
      (∑ m ∈ range 8, ((x : ℂ) * I) ^ m / m.factorial)) * I =
      2 * (x : ℂ) - 2 * (x : ℂ) ^ 3 / 6 + 2 * (x : ℂ) ^ 5 / 120 - 2 * (x : ℂ) ^ 7 / 5040 := by
  have h2 : (I : ℂ) ^ 2 = -1 := Complex.I_sq
  have h3 : (I : ℂ) ^ 3 = -I := by rw [pow_succ, h2, neg_one_mul]
  have h4 : (I : ℂ) ^ 4 = 1 := by rw [pow_succ, h3, neg_mul, Complex.I_mul_I, neg_neg]
  have h5 : (I : ℂ) ^ 5 = I := by rw [pow_succ, h4, one_mul]
  have h6 : (I : ℂ) ^ 6 = -1 := by rw [pow_succ, h5, Complex.I_mul_I]
  have h7 : (I : ℂ) ^ 7 = -I := by rw [pow_succ, h6, neg_one_mul]
  simp only [Finset.sum_range_succ, Finset.range_zero, Finset.sum_empty, Nat.factorial, mul_pow,
    h2, h3, h4, h5, h6, h7]
  push_cast
  ring_nf
  rw [h2]
  ring

theorem cos_taylor8 {x : ℝ} (hx : |x| ≤ 1) :
    |Real.cos x - (1 - x ^ 2 / 2 + x ^ 4 / 24 - x ^ 6 / 720)| ≤ |x| ^ 8 * (9 / 322560) := by
  have hxI : Complex.abs ((x : ℂ) * I) ≤ 1 := by
    rw [map_mul, Complex.abs_I, mul_one, Complex.abs_ofReal]
    exact hx
  have hxI2 : Complex.abs (-(x : ℂ) * I) ≤ 1 := by
    rw [neg_mul, Complex.abs.map_neg, map_mul, Complex.abs_I, mul_one, Complex.abs_ofReal]
    exact hx
  have h1 := @Complex.exp_bound ((x : ℂ) * I) hxI 8 (by norm_num)
  have h2 := @Complex.exp_bound (-(x : ℂ) * I) hxI2 8 (by norm_num)
  have habs : |Real.cos x - (1 - x ^ 2 / 2 + x ^ 4 / 24 - x ^ 6 / 720)| =
      Complex.abs (Complex.cos x - (1 - (x : ℂ) ^ 2 / 2 + (x : ℂ) ^ 4 / 24 - (x : ℂ) ^ 6 / 720))
      := by
    rw [← Complex.abs_ofReal]
    congr 1
    push_cast [Complex.ofReal_cos]
    ring
  have hrw : Complex.cos x - (1 - (x : ℂ) ^ 2 / 2 + (x : ℂ) ^ 4 / 24 - (x : ℂ) ^ 6 / 720) =
      ((Complex.exp ((x : ℂ) * I) - ∑ m ∈ range 8, ((x : ℂ) * I) ^ m / m.factorial) +
        (Complex.exp (-(x : ℂ) * I) - ∑ m ∈ range 8, (-(x : ℂ) * I) ^ m / m.factorial)) / 2 := by
    rw [show Complex.cos (x : ℂ) =
      (Complex.exp ((x : ℂ) * I) + Complex.exp (-(x : ℂ) * I)) / 2 from rfl]
    linear_combination (1 / 2 : ℂ) * taylor8_sum_add x
  rw [habs, hrw]
  have htri := Complex.abs.add_le
    (Complex.exp ((x : ℂ) * I) - ∑ m ∈ range 8, ((x : ℂ) * I) ^ m / m.factorial)
    (Complex.exp (-(x : ℂ) * I) - ∑ m ∈ range 8, (-(x : ℂ) * I) ^ m / m.factorial)
  have e1 : Complex.abs ((x : ℂ) * I) = |x| := by
    rw [map_mul, Complex.abs_I, mul_one, Complex.abs_ofReal]
  have e2 : Complex.abs (-(x : ℂ) * I) = |x| := by
    rw [neg_mul, Complex.abs.map_neg, map_mul, Complex.abs_I, mul_one, Complex.abs_ofReal]
  rw [e1] at h1
  rw [e2] at h2
  rw [map_div₀, Complex.abs_two]
  calc Complex.abs
        ((Complex.exp ((x : ℂ) * I) - ∑ m ∈ range 8, ((x : ℂ) * I) ^ m / m.factorial) +
          (Complex.exp (-(x : ℂ) * I) - ∑ m ∈ range 8, (-(x : ℂ) * I) ^ m / m.factorial)) / 2 ≤
      (Complex.abs
          (Complex.exp ((x : ℂ) * I) - ∑ m ∈ range 8, ((x : ℂ) * I) ^ m / m.factorial) +
        Complex.abs
          (Complex.exp (-(x : ℂ) * I) - ∑ m ∈ range 8, (-(x : ℂ) * I) ^ m / m.factorial)) / 2 :=
      by linarith [htri]
    _ ≤ (|x| ^ 8 * ((8 : ℕ).succ * ((Nat.factorial 8 : ℕ) * (8 : ℕ) : ℝ)⁻¹) +
        |x| ^ 8 * ((8 : ℕ).succ * ((Nat.factorial 8 : ℕ) * (8 : ℕ) : ℝ)⁻¹)) / 2 := by
      gcongr
    _ = |x| ^ 8 * (9 / 322560) := by
      norm_num [Nat.factorial]

theorem sin_taylor8 {x : ℝ} (hx : |x| ≤ 1) :
    |Real.sin x - (x - x ^ 3 / 6 + x ^ 5 / 120 - x ^ 7 / 5040)| ≤ |x| ^ 8 * (9 / 322560) := by
  have hxI : Complex.abs ((x : ℂ) * I) ≤ 1 := by
    rw [map_mul, Complex.abs_I, mul_one, Complex.abs_ofReal]
    exact hx
  have hxI2 : Complex.abs (-(x : ℂ) * I) ≤ 1 := by
    rw [neg_mul, Complex.abs.map_neg, map_mul, Complex.abs_I, mul_one, Complex.abs_ofReal]
    exact hx
  have h1 := @Complex.exp_bound ((x : ℂ) * I) hxI 8 (by norm_num)
  have h2 := @Complex.exp_bound (-(x : ℂ) * I) hxI2 8 (by norm_num)
  have habs : |Real.sin x - (x - x ^ 3 / 6 + x ^ 5 / 120 - x ^ 7 / 5040)| =
      Complex.abs (Complex.sin x -
        ((x : ℂ) - (x : ℂ) ^ 3 / 6 + (x : ℂ) ^ 5 / 120 - (x : ℂ) ^ 7 / 5040)) := by
    rw [← Complex.abs_ofReal]
    congr 1
    push_cast [Complex.ofReal_sin]
    ring
  have hrw : Complex.sin x -
      ((x : ℂ) - (x : ℂ) ^ 3 / 6 + (x : ℂ) ^ 5 / 120 - (x : ℂ) ^ 7 / 5040) =
      ((Complex.exp (-(x : ℂ) * I) - ∑ m ∈ range 8, (-(x : ℂ) * I) ^ m / m.factorial) -
        (Complex.exp ((x : ℂ) * I) - ∑ m ∈ range 8, ((x : ℂ) * I) ^ m / m.factorial)) * I / 2
      := by
    rw [show Complex.sin (x : ℂ) =
      (Complex.exp (-(x : ℂ) * I) - Complex.exp ((x : ℂ) * I)) * I / 2 from rfl]
    linear_combination (1 / 2 : ℂ) * taylor8_sum_sub x
  rw [habs, hrw]
  have e1 : Complex.abs ((x : ℂ) * I) = |x| := by
    rw [map_mul, Complex.abs_I, mul_one, Complex.abs_ofReal]
  have e2 : Complex.abs (-(x : ℂ) * I) = |x| := by
    rw [neg_mul, Complex.abs.map_neg, map_mul, Complex.abs_I, mul_one, Complex.abs_ofReal]
  rw [e1] at h1
  rw [e2] at h2
  have htri : Complex.abs
      ((Complex.exp (-(x : ℂ) * I) - ∑ m ∈ range 8, (-(x : ℂ) * I) ^ m / m.factorial) -
        (Complex.exp ((x : ℂ) * I) - ∑ m ∈ range 8, ((x : ℂ) * I) ^ m / m.factorial)) ≤
      Complex.abs
        (Complex.exp (-(x : ℂ) * I) - ∑ m ∈ range 8, (-(x : ℂ) * I) ^ m / m.factorial) +
      Complex.abs
        (Complex.exp ((x : ℂ) * I) - ∑ m ∈ range 8, ((x : ℂ) * I) ^ m / m.factorial) := by
    rw [sub_eq_add_neg]
    calc Complex.abs _ ≤ _ := Complex.abs.add_le _ _
      _ = _ := by rw [Complex.abs.map_neg]
  rw [map_div₀, map_mul, Complex.abs_I, Complex.abs_two, mul_one]
  calc Complex.abs
        ((Complex.exp (-(x : ℂ) * I) - ∑ m ∈ range 8, (-(x : ℂ) * I) ^ m / m.factorial) -
          (Complex.exp ((x : ℂ) * I) - ∑ m ∈ range 8, ((x : ℂ) * I) ^ m / m.factorial)) / 2 ≤
      (Complex.abs
          (Complex.exp (-(x : ℂ) * I) - ∑ m ∈ range 8, (-(x : ℂ) * I) ^ m / m.factorial) +
        Complex.abs
          (Complex.exp ((x : ℂ) * I) - ∑ m ∈ range 8, ((x : ℂ) * I) ^ m / m.factorial)) / 2 :=
      by linarith [htri]
    _ ≤ (|x| ^ 8 * ((8 : ℕ).succ * ((Nat.factorial 8 : ℕ) * (8 : ℕ) : ℝ)⁻¹) +
        |x| ^ 8 * ((8 : ℕ).succ * ((Nat.factorial 8 : ℕ) * (8 : ℕ) : ℝ)⁻¹)) / 2 := by
      gcongr
    _ = |x| ^ 8 * (9 / 322560) := by
      norm_num [Nat.factorial]

end TaylorBounds

theorem cos_interval_bounds {x lo hi : ℝ} (hlo : lo ≤ x) (hhi : x ≤ hi) (h0 : 0 ≤ lo)
    (h1 : hi ≤ 1) :
    1 - hi ^ 2 / 2 + lo ^ 4 / 24 - hi ^ 6 / 720 - hi ^ 8 * (9 / 322560) ≤ Real.cos x ∧
    Real.cos x ≤ 1 - lo ^ 2 / 2 + hi ^ 4 / 24 - lo ^ 6 / 720 + hi ^ 8 * (9 / 322560) := by
  have hx0 : 0 ≤ x := le_trans h0 hlo
  have hxabs : |x| ≤ 1 := by
    rw [abs_of_nonneg hx0]
    linarith
  have hb := cos_taylor8 hxabs
  rw [abs_le] at hb
  rw [abs_of_nonneg hx0] at hb
  have p2lo : lo ^ 2 ≤ x ^ 2 := pow_le_pow_left₀ h0 hlo 2
  have p2hi : x ^ 2 ≤ hi ^ 2 := pow_le_pow_left₀ hx0 hhi 2
  have p4lo : lo ^ 4 ≤ x ^ 4 := pow_le_pow_left₀ h0 hlo 4
  have p4hi : x ^ 4 ≤ hi ^ 4 := pow_le_pow_left₀ hx0 hhi 4
  have p6lo : lo ^ 6 ≤ x ^ 6 := pow_le_pow_left₀ h0 hlo 6
  have p6hi : x ^ 6 ≤ hi ^ 6 := pow_le_pow_left₀ hx0 hhi 6
  have p8hi : x ^ 8 ≤ hi ^ 8 := pow_le_pow_left₀ hx0 hhi 8
  constructor <;> nlinarith [hb.1, hb.2]

theorem sin_interval_bounds {x lo hi : ℝ} (hlo : lo ≤ x) (hhi : x ≤ hi) (h0 : 0 ≤ lo)
    (h1 : hi ≤ 1) :
    lo - hi ^ 3 / 6 + lo ^ 5 / 120 - hi ^ 7 / 5040 - hi ^ 8 * (9 / 322560) ≤ Real.sin x ∧
    Real.sin x ≤ hi - lo ^ 3 / 6 + hi ^ 5 / 120 - lo ^ 7 / 5040 + hi ^ 8 * (9 / 322560) := by
  have hx0 : 0 ≤ x := le_trans h0 hlo
  have hxabs : |x| ≤ 1 := by
    rw [abs_of_nonneg hx0]
    linarith
  have hb := sin_taylor8 hxabs
  rw [abs_le] at hb
  rw [abs_of_nonneg hx0] at hb
  have p3lo : lo ^ 3 ≤ x ^ 3 := pow_le_pow_left₀ h0 hlo 3
  have p3hi : x ^ 3 ≤ hi ^ 3 := pow_le_pow_left₀ hx0 hhi 3
  have p5lo : lo ^ 5 ≤ x ^ 5 := pow_le_pow_left₀ h0 hlo 5
  have p5hi : x ^ 5 ≤ hi ^ 5 := pow_le_pow_left₀ hx0 hhi 5
  have p7lo : lo ^ 7 ≤ x ^ 7 := pow_le_pow_left₀ h0 hlo 7
  have p7hi : x ^ 7 ≤ hi ^ 7 := pow_le_pow_left₀ hx0 hhi 7
  have p8hi : x ^ 8 ≤ hi ^ 8 := pow_le_pow_left₀ hx0 hhi 8
  constructor <;> nlinarith [hb.1, hb.2]

/-- Numeric enclosure of `degreesToRadians` from the decimal bounds on π. -/
theorem degreesToRadians_mem (q : ℚ) (lo hi : ℝ) (hq : 0 < q)
    (hlo : lo ≤ (q : ℝ) * 3.141592 / 180) (hhi : (q : ℝ) * 3.141593 / 180 ≤ hi) :
    lo ≤ degreesToRadians q ∧ degreesToRadians q ≤ hi := by
  unfold degreesToRadians
  have hq0 : (0 : ℝ) < (q : ℝ) := by exact_mod_cast hq
  have hpi1 := Real.pi_gt_d6
  have hpi2 := Real.pi_lt_d6
  constructor
  · calc lo ≤ (q : ℝ) * 3.141592 / 180 := hlo
      _ ≤ (q : ℝ) * Real.pi / 180 := by gcongr
  · calc (q : ℝ) * Real.pi / 180 ≤ (q : ℝ) * 3.141593 / 180 := by gcongr
      _ ≤ hi := hhi

/-- Degree differences convert pointwise. -/
theorem degreesToRadians_sub (p q : ℚ) :
    degreesToRadians p - degreesToRadians q = degreesToRadians (p - q) := by
  unfold degreesToRadians
  push_cast
  ring

/-- Negation commutes with degree conversion. -/
theorem degreesToRadians_neg (q : ℚ) : degreesToRadians (-q) = -degreesToRadians q := by
  unfold degreesToRadians
  push_cast
  ring

/-- Halving commutes with degree conversion. -/
theorem degreesToRadians_half (q : ℚ) : degreesToRadians q / 2 = degreesToRadians (q / 2) := by
  unfold degreesToRadians
  push_cast
  ring

/-- The sine of an angle in degrees is the cosine of its complement. -/
theorem sin_rad_eq_cos_rad (q : ℚ) :
    Real.sin (degreesToRadians q) = Real.cos (degreesToRadians (90 - q)) := by
  have h : degreesToRadians (90 - q) = Real.pi / 2 - degreesToRadians q := by
    unfold degreesToRadians
    push_cast
    ring
  rw [h, Real.cos_pi_div_two_sub]

/-- Certified bounds for `cos` of the reference latitude. -/
theorem cos_q1_bounds :
    (0.667302 : ℝ) ≤ Real.cos (degreesToRadians 48.13978407641908) ∧
    Real.cos (degreesToRadians 48.13978407641908) ≤ 0.667317 := by
  obtain ⟨hlo, hhi⟩ := degreesToRadians_mem 48.13978407641908 0.8401975 0.8401979
    (by norm_num) (by norm_num) (by norm_num)
  obtain ⟨h1, h2⟩ := cos_interval_bounds hlo hhi (by norm_num) (by norm_num)
  constructor
  · calc (0.667302 : ℝ) ≤ 1 - 0.8401979 ^ 2 / 2 + 0.8401975 ^ 4 / 24 - 0.8401979 ^ 6 / 720 -
        0.8401979 ^ 8 * (9 / 322560) := by norm_num
      _ ≤ _ := h1
  · calc Real.cos (degreesToRadians 48.13978407641908) ≤
        1 - 0.8401975 ^ 2 / 2 + 0.8401979 ^ 4 / 24 - 0.8401975 ^ 6 / 720 +
          0.8401979 ^ 8 * (9 / 322560) := h2
      _ ≤ 0.667317 := by norm_num

/-- Certified bounds for `cos` of 41 degrees. -/
theorem cos_q2_bounds :
    (0.754704 : ℝ) ≤ Real.cos (degreesToRadians 41) ∧
    Real.cos (degreesToRadians 41) ≤ 0.754711 := by
  obtain ⟨hlo, hhi⟩ := degreesToRadians_mem 41 0.7155848 0.7155851
    (by norm_num) (by norm_num) (by norm_num)
  obtain ⟨h1, h2⟩ := cos_interval_bounds hlo hhi (by norm_num) (by norm_num)
  constructor
  · calc (0.754704 : ℝ) ≤ 1 - 0.7155851 ^ 2 / 2 + 0.7155848 ^ 4 / 24 - 0.7155851 ^ 6 / 720 -
        0.7155851 ^ 8 * (9 / 322560) := by norm_num
      _ ≤ _ := h1
  · calc Real.cos (degreesToRadians 41) ≤
        1 - 0.7155848 ^ 2 / 2 + 0.7155851 ^ 4 / 24 - 0.7155848 ^ 6 / 720 +
          0.7155851 ^ 8 * (9 / 322560) := h2
      _ ≤ 0.754711 := by norm_num

/-- Certified bounds for `sin` of half the latitude difference. -/
theorem sin_qs_bounds :
    (0.701774 : ℝ) ≤ Real.sin (degreesToRadians 44.56989203820954) ∧
    Real.sin (degreesToRadians 44.56989203820954) ≤ 0.701783 := by
  obtain ⟨hlo, hhi⟩ := degreesToRadians_mem 44.56989203820954 0.7778912 0.7778915
    (by norm_num) (by norm_num) (by norm_num)
  obtain ⟨h1, h2⟩ := sin_interval_bounds hlo hhi (by norm_num) (by norm_num)
  constructor
  · calc (0.701774 : ℝ) ≤ 0.7778912 - 0.7778915 ^ 3 / 6 + 0.7778912 ^ 5 / 120 -
        0.7778915 ^ 7 / 5040 - 0.7778915 ^ 8 * (9 / 322560) := by norm_num
      _ ≤ _ := h1
  · calc Real.sin (degreesToRadians 44.56989203820954) ≤
        0.7778915 - 0.7778912 ^ 3 / 6 + 0.7778915 ^ 5 / 120 - 0.7778912 ^ 7 / 5040 +
          0.7778915 ^ 8 * (9 / 322560) := h2
      _ ≤ 0.701783 := by norm_num

/-- Certified bounds for `cos` of the longitude half-difference complement. -/
theorem cos_qn_bounds :
    (0.979742 : ℝ) ≤ Real.cos (degreesToRadians 11.5522345141648585) ∧
    Real.cos (degreesToRadians 11.5522345141648585) ≤ 0.979743 := by
  obtain ⟨hlo, hhi⟩ := degreesToRadians_mem 11.5522345141648585 0.2016244 0.2016246
    (by norm_num) (by norm_num) (by norm_num)
  obtain ⟨h1, h2⟩ := cos_interval_bounds hlo hhi (by norm_num) (by norm_num)
  constructor
  · calc (0.979742 : ℝ) ≤ 1 - 0.2016246 ^ 2 / 2 + 0.2016244 ^ 4 / 24 - 0.2016246 ^ 6 / 720 -
        0.2016246 ^ 8 * (9 / 322560) := by norm_num
      _ ≤ _ := h1
  · calc Real.cos (degreesToRadians 11.5522345141648585) ≤
        1 - 0.2016244 ^ 2 / 2 + 0.2016246 ^ 4 / 24 - 0.2016244 ^ 6 / 720 +
          0.2016246 ^ 8 * (9 / 322560) := h2
      _ ≤ 0.979743 := by norm_num

/-- Certified bounds at the complement of `18500 / (2 * 6371.0088)`. -/
theorem u1_trig_bounds :
    (0.992938 : ℝ) ≤ Real.cos (Real.pi / 2 - 11562500 / 7963761) ∧
    (0.118625 : ℝ) ≤ Real.sin (Real.pi / 2 - 11562500 / 7963761) ∧
    Real.sin (Real.pi / 2 - 11562500 / 7963761) ≤ 0.118628 := by
  have hu_lo : (0.1189066 : ℝ) ≤ Real.pi / 2 - 11562500 / 7963761 := by
    have := Real.pi_gt_d6
    linarith
  have hu_hi : Real.pi / 2 - 11562500 / 7963761 ≤ 0.1189072 := by
    have := Real.pi_lt_d6
    linarith
  obtain ⟨hc1, hc2⟩ := cos_interval_bounds hu_lo hu_hi (by norm_num) (by norm_num)
  obtain ⟨hs1, hs2⟩ := sin_interval_bounds hu_lo hu_hi (by norm_num) (by norm_num)
  refine ⟨?_, ?_, ?_⟩
  · calc (0.992938 : ℝ) ≤ 1 - 0.1189072 ^ 2 / 2 + 0.1189066 ^ 4 / 24 - 0.1189072 ^ 6 / 720 -
        0.1189072 ^ 8 * (9 / 322560) := by norm_num
      _ ≤ _ := hc1
  · calc (0.118625 : ℝ) ≤ 0.1189066 - 0.1189072 ^ 3 / 6 + 0.1189066 ^ 5 / 120 -
        0.1189072 ^ 7 / 5040 - 0.1189072 ^ 8 * (9 / 322560) := by norm_num
      _ ≤ _ := hs1
  · calc Real.sin (Real.pi / 2 - 11562500 / 7963761) ≤
        0.1189072 - 0.1189066 ^ 3 / 6 + 0.1189072 ^ 5 / 120 - 0.1189066 ^ 7 / 5040 +
          0.1189072 ^ 8 * (9 / 322560) := hs2
      _ ≤ 0.118628 := by norm_num

/-- Certified bounds at the complement of `17500 / (2 * 6371.0088)`. -/
theorem u0_trig_bounds :
    Real.cos (Real.pi / 2 - 10937500 / 7963761) ≤ 0.980583 ∧
    (0.196107 : ℝ) ≤ Real.sin (Real.pi / 2 - 10937500 / 7963761) := by
  have hu_lo : (0.1973871 : ℝ) ≤ Real.pi / 2 - 10937500 / 7963761 := by
    have := Real.pi_gt_d6
    linarith
  have hu_hi : Real.pi / 2 - 10937500 / 7963761 ≤ 0.1973877 := by
    have := Real.pi_lt_d6
    linarith
  obtain ⟨hc1, hc2⟩ := cos_interval_bounds hu_lo hu_hi (by norm_num) (by norm_num)
  obtain ⟨hs1, hs2⟩ := sin_interval_bounds hu_lo hu_hi (by norm_num) (by norm_num)
  constructor
  · calc Real.cos (Real.pi / 2 - 10937500 / 7963761) ≤
        1 - 0.1973871 ^ 2 / 2 + 0.1973877 ^ 4 / 24 - 0.1973871 ^ 6 / 720 +
          0.1973877 ^ 8 * (9 / 322560) := hc2
      _ ≤ 0.980583 := by norm_num
  · calc (0.196107 : ℝ) ≤ 0.1973871 - 0.1973877 ^ 3 / 6 + 0.1973871 ^ 5 / 120 -
        0.1973877 ^ 7 / 5040 - 0.1973877 ^ 8 * (9 / 322560) := by norm_num
      _ ≤ _ := hs1

/-- Certified range of the haversine distance from the default reference
point to the specification's New Zealand sample coordinate: strictly between
17500 and 18500 kilometres (the true value is about 18030 km). -/
theorem hav_reference_nz_bounds :
    17500 < haversineDistanceKm ⟨48.13978407641908, 17.104469028329717⟩ ⟨-41, 174⟩ ∧
    haversineDistanceKm ⟨48.13978407641908, 17.104469028329717⟩ ⟨-41, 174⟩ < 18500 := by
  have hlat2 : (degreesToRadians (-41) - degreesToRadians 48.13978407641908) / 2 =
      -degreesToRadians 44.56989203820954 := by
    rw [degreesToRadians_sub, degreesToRadians_half,
      show ((-41 : ℚ) - 48.13978407641908) / 2 = -(44.56989203820954 : ℚ) by norm_num,
      degreesToRadians_neg]
  have hlon2 : (degreesToRadians 174 - degreesToRadians 17.104469028329717) / 2 =
      degreesToRadians 78.4477654858351415 := by
    rw [degreesToRadians_sub, degreesToRadians_half,
      show ((174 : ℚ) - 17.104469028329717) / 2 = (78.4477654858351415 : ℚ) by norm_num]
  have hsn : Real.sin (degreesToRadians 78.4477654858351415) =
      Real.cos (degreesToRadians 11.5522345141648585) := by
    rw [sin_rad_eq_cos_rad,
      show (90 : ℚ) - 78.4477654858351415 = (11.5522345141648585 : ℚ) by norm_num]
  have hc2neg : Real.cos (degreesToRadians (-41)) = Real.cos (degreesToRadians 41) := by
    rw [degreesToRadians_neg, Real.cos_neg]
  unfold haversineDistanceKm
  dsimp only
  rw [hlat2, Real.sin_neg, neg_mul_neg, hc2neg, hlon2, hsn]
  obtain ⟨hs1lo, hs1hi⟩ := sin_qs_bounds
  obtain ⟨hc1lo, hc1hi⟩ := cos_q1_bounds
  obtain ⟨hc2lo, hc2hi⟩ := cos_q2_bounds
  obtain ⟨hcnlo, hcnhi⟩ := cos_qn_bounds
  set s1 := Real.sin (degreesToRadians 44.56989203820954)
  set c1 := Real.cos (degreesToRadians 48.13978407641908)
  set c2 := Real.cos (degreesToRadians 41)
  set cn := Real.cos (degreesToRadians 11.5522345141648585)
  have hs1pos : (0 : ℝ) ≤ s1 := by linarith
  have hc1pos : (0 : ℝ) ≤ c1 := by linarith
  have hc2pos : (0 : ℝ) ≤ c2 := by linarith
  have hcnpos : (0 : ℝ) ≤ cn := by linarith
  have hAlo : (0.97589 : ℝ) ≤ s1 * s1 + c1 * c2 * cn * cn := by
    have h12 : (0.667302 : ℝ) * 0.754704 ≤ c1 * c2 :=
      mul_le_mul hc1lo hc2lo (by norm_num) hc1pos
    have h123 : (0.667302 : ℝ) * 0.754704 * 0.979742 ≤ c1 * c2 * cn :=
      mul_le_mul h12 hcnlo (by norm_num) (mul_nonneg hc1pos hc2pos)
    have h1234 : (0.667302 : ℝ) * 0.754704 * 0.979742 * 0.979742 ≤ c1 * c2 * cn * cn :=
      mul_le_mul h123 hcnlo (by norm_num) (mul_nonneg (mul_nonneg hc1pos hc2pos) hcnpos)
    have hss : (0.701774 : ℝ) * 0.701774 ≤ s1 * s1 :=
      mul_le_mul hs1lo hs1lo (by norm_num) hs1pos
    nlinarith [hss, h1234]
  have hAhi : s1 * s1 + c1 * c2 * cn * cn ≤ 0.97594 := by
    have h12 : c1 * c2 ≤ (0.667317 : ℝ) * 0.754711 :=
      mul_le_mul hc1hi hc2hi hc2pos (by norm_num)
    have h123 : c1 * c2 * cn ≤ (0.667317 : ℝ) * 0.754711 * 0.979743 :=
      mul_le_mul h12 hcnhi hcnpos (by norm_num)
    have h1234 : c1 * c2 * cn * cn ≤ (0.667317 : ℝ) * 0.754711 * 0.979743 * 0.979743 :=
      mul_le_mul h123 hcnhi hcnpos (by norm_num)
    have hss : s1 * s1 ≤ (0.701783 : ℝ) * 0.701783 :=
      mul_le_mul hs1hi hs1hi hs1pos (by norm_num)
    nlinarith [hss, h1234]
  set A := s1 * s1 + c1 * c2 * cn * cn with hAdef
  have hA0 : (0 : ℝ) ≤ A := by linarith
  have h1A : (0 : ℝ) < 1 - A := by linarith
  unfold atan2
  rw [if_pos (Real.sqrt_pos.mpr h1A), ← Real.sqrt_div hA0]
  have hratio_lo : (0.980583 / 0.196107 : ℝ) < Real.sqrt (A / (1 - A)) := by
    rw [Real.lt_sqrt (by positivity), lt_div_iff h1A]
    nlinarith [hAlo]
  have hratio_hi : Real.sqrt (A / (1 - A)) < 0.992938 / 0.118628 := by
    rw [Real.sqrt_lt' (by norm_num), div_lt_iff h1A]
    nlinarith [hAhi]
  obtain ⟨hcu1, hsu1lo, hsu1hi⟩ := u1_trig_bounds
  obtain ⟨hcu0, hsu0⟩ := u0_trig_bounds
  have ht1_lt : (11562500 / 7963761 : ℝ) < Real.pi / 2 := by
    have := Real.pi_gt_d6
    linarith
  have ht1_gt : -(Real.pi / 2) < (11562500 / 7963761 : ℝ) := by
    have := Real.pi_gt_d6
    linarith
  have ht0_lt : (10937500 / 7963761 : ℝ) < Real.pi / 2 := by
    have := Real.pi_gt_d6
    linarith
  have ht0_gt : -(Real.pi / 2) < (10937500 / 7963761 : ℝ) := by
    have := Real.pi_gt_d6
    linarith
  have htan1 : (0.992938 / 0.118628 : ℝ) ≤ Real.tan (11562500 / 7963761) := by
    rw [Real.tan_eq_sin_div_cos]
    have hsin1 : (0.992938 : ℝ) ≤ Real.sin (11562500 / 7963761) := by
      rw [← Real.cos_pi_div_two_sub]
      exact hcu1
    have hcos1hi : Real.cos (11562500 / 7963761 : ℝ) ≤ 0.118628 := by
      rw [← Real.sin_pi_div_two_sub]
      exact hsu1hi
    have hcos1pos : (0 : ℝ) < Real.cos (11562500 / 7963761) := by
      rw [← Real.sin_pi_div_two_sub]
      linarith
    exact div_le_div (by linarith) hsin1 hcos1pos hcos1hi
  have htan0 : Real.tan (10937500 / 7963761 : ℝ) ≤ 0.980583 / 0.196107 := by
    rw [Real.tan_eq_sin_div_cos]
    have hsin0 : Real.sin (10937500 / 7963761 : ℝ) ≤ 0.980583 := by
      rw [← Real.cos_pi_div_two_sub]
      exact hcu0
    have hcos0lo : (0.196107 : ℝ) ≤ Real.cos (10937500 / 7963761) := by
      rw [← Real.sin_pi_div_two_sub]
      exact hsu0
    exact div_le_div (by norm_num) hsin0 (by linarith) hcos0lo
  have harctan_hi : Real.arctan (Real.sqrt (A / (1 - A))) < 11562500 / 7963761 := by
    have h := Real.arctan_strictMono (lt_of_lt_of_le hratio_hi htan1)
    rw [Real.arctan_tan ht1_gt ht1_lt] at h
    exact h
  have harctan_lo : (10937500 / 7963761 : ℝ) < Real.arctan (Real.sqrt (A / (1 - A))) := by
    have h := Real.arctan_strictMono (lt_of_le_of_lt htan0 hratio_lo)
    rw [Real.arctan_tan ht0_gt ht0_lt] at h
    exact h
  constructor
  · calc (17500 : ℝ) = 6371.0088 * (2 * (10937500 / 7963761)) := by norm_num
      _ < 6371.0088 * (2 * Real.arctan (Real.sqrt (A / (1 - A)))) := by
        apply mul_lt_mul_of_pos_left ?_ (by norm_num)
        linarith
  · calc 6371.0088 * (2 * Real.arctan (Real.sqrt (A / (1 - A)))) <
        6371.0088 * (2 * (11562500 / 7963761)) := by
          apply mul_lt_mul_of_pos_left ?_ (by norm_num)
          linarith
      _ = 18500 := by norm_num

/-- Counterexample to the claimed sanity range: for the reference point
(48.13978407641908, 17.104469028329717) and the New Zealand coordinate
(-41, 174) the computed haversine distance does NOT lie in the claimed
18500 to 19500 km range (it is strictly below 18500 km; the true value is
about 18030 km). -/
theorem C2_haversine_range_counterexample :
    ¬ (18500 ≤ haversineDistanceKm ⟨48.13978407641908, 17.104469028329717⟩ ⟨-41, 174⟩ ∧
       haversineDistanceKm ⟨48.13978407641908, 17.104469028329717⟩ ⟨-41, 174⟩ ≤ 19500) := by
  intro h
  exact absurd hav_reference_nz_bounds.2 (not_lt.mpr h.1)

/-- C2 (amended): haversineDistanceKm computes exactly the standard haversine
formula with Earth radius 6371.0088 km (degree-to-radian conversion, half-angle
sine squares, cos-cos longitude term, c = 2*atan2(sqrt a, sqrt (1-a))), and for
the reference (48.13978407641908, 17.104469028329717) and the New Zealand
coordinate (-41, 174) the result lies strictly between 17500 and 18500 km
(not in the originally claimed 18500 to 19500 km range). -/
theorem C2_haversine_formula_amended :
    (∀ a b : ReferencePoint, haversineDistanceKm a b = specHaversineKm a b) ∧
    17500 < haversineDistanceKm ⟨48.13978407641908, 17.104469028329717⟩ ⟨-41, 174⟩ ∧
    haversineDistanceKm ⟨48.13978407641908, 17.104469028329717⟩ ⟨-41, 174⟩ < 18500 :=
  ⟨haversineDistanceKm_eq_spec, hav_reference_nz_bounds.1, hav_reference_nz_bounds.2⟩

/-- The keys at which a repeated-tag ambiguity can occur in a parsed KML
tree: container/geometry children plus the textual-content positions. -/
def relevantKeys : List String :=
  ["Document", "Placemark", "Folder", "LineString", "MultiGeometry", "name", "coordinates"]

/-- A value that the one-element-sequence normalization can wrap: anything
except `undefined` (which reads as the empty sequence) and an existing
array (which reads as itself). -/
def wrappable : JsValue → Bool
  | vUndef => false
  | vArr _ => false
  | _ => true

/-- Equivalence of parsed trees up to the bare-value versus one-element-array
ambiguity: two trees are related when they agree everywhere except that, at
a field position whose key is one of the `relevantKeys`, one side may hold a
bare (non-array, non-undefined) value where the other holds the one-element
array containing an equivalent value. -/
inductive NodeEq : JsValue → JsValue → Prop where
  | undef : NodeEq vUndef vUndef
  | null : NodeEq vNull vNull
  | bool {b : Bool} : NodeEq (vBool b) (vBool b)
  | num {q : ℚ} : NodeEq (vNum q) (vNum q)
  | str {s : String} : NodeEq (vStr s) (vStr s)
  | arrNil : NodeEq (vArr []) (vArr [])
  | arrCons {v v' : JsValue} {l l' : List JsValue} :
      NodeEq v v' → NodeEq (vArr l) (vArr l') → NodeEq (vArr (v :: l)) (vArr (v' :: l'))
  | objNil : NodeEq (vObj []) (vObj [])
  | objCongr {k : String} {v v' : JsValue} {fs fs' : List (String × JsValue)} :
      NodeEq v v' → NodeEq (vObj fs) (vObj fs') →
      NodeEq (vObj ((k, v) :: fs)) (vObj ((k, v') :: fs'))
  | objWrap {k : String} {v v' : JsValue} {fs fs' : List (String × JsValue)} :
      k ∈ relevantKeys → wrappable v = true → NodeEq v v' → NodeEq (vObj fs) (vObj fs') →
      NodeEq (vObj ((k, v) :: fs)) (vObj ((k, vArr [v']) :: fs'))
  | objUnwrap {k : String} {v v' : JsValue} {fs fs' : List (String × JsValue)} :
      k ∈ relevantKeys → wrappable v = true → NodeEq v v' → NodeEq (vObj fs) (vObj fs') →
      NodeEq (vObj ((k, vArr [v]) :: fs)) (vObj ((k, v') :: fs'))

/-- Relation between the values stored under key `k` on the two sides:
either equivalent trees, or, when `k` is an ambiguity position, a bare
wrappable value on one side and the one-element array holding an equivalent
tree on the other. -/
def FieldEq1 (k : String) (v v' : JsValue) : Prop :=
  NodeEq v v' ∨
  (k ∈ relevantKeys ∧
    ((∃ w, wrappable v = true ∧ v' = vArr [w] ∧ NodeEq v w) ∨
     (∃ w, v = vArr [w] ∧ wrappable w = true ∧ NodeEq w v')))

/-- `NodeEq` preserves the top constructor, hence wrappability. -/
theorem nodeEq_wrappable {v v' : JsValue} (h : NodeEq v v') : wrappable v = wrappable v' := by
  cases h <;> rfl

/-- `NodeEq` preserves JavaScript truthiness. -/
theorem nodeEq_jsFalsy {v v' : JsValue} (h : NodeEq v v') : jsFalsy v = jsFalsy v' := by
  cases h <;> rfl

/-- `NodeEq` preserves the `isRecord` test. -/
theorem nodeEq_isRecord {v v' : JsValue} (h : NodeEq v v') : isRecord v = isRecord v' := by
  cases h <;> rfl

/-- Equivalent objects look up `FieldEq1`-related values at every key. -/
theorem fieldsEq_lookup : ∀ {fs fs' : List (String × JsValue)},
    NodeEq (vObj fs) (vObj fs') → ∀ key : String,
    FieldEq1 key (lookupField fs key) (lookupField fs' key) := by
  intro fs
  induction fs with
  | nil =>
    intro fs' h key
    cases h
    exact Or.inl NodeEq.undef
  | cons kv tl ih =>
    obtain ⟨k, v⟩ := kv
    intro fs' h key
    cases h with
    | objCongr h1 h2 =>
      simp only [lookupField]
      by_cases hk : k = key
      · simp only [if_pos hk]
        exact Or.inl h1
      · simp only [if_neg hk]
        exact ih h2 key
    | objWrap hmem hw h1 h2 =>
      simp only [lookupField]
      by_cases hk : k = key
      · simp only [if_pos hk]
        exact Or.inr ⟨hk ▸ hmem, Or.inl ⟨_, hw, rfl, h1⟩⟩
      · simp only [if_neg hk]
        exact ih h2 key
    | objUnwrap hmem hw h1 h2 =>
      simp only [lookupField]
      by_cases hk : k = key
      · simp only [if_pos hk]
        exact Or.inr ⟨hk ▸ hmem, Or.inr ⟨_, rfl, hw, h1⟩⟩
      · simp only [if_neg hk]
        exact ih h2 key

/-- Property access on equivalent values yields `FieldEq1`-related values. -/
theorem nodeEq_fieldOf {v v' : JsValue} (h : NodeEq v v') (key : String) :
    FieldEq1 key (fieldOf v key) (fieldOf v' key) := by
  cases h with
  | objNil => exact fieldsEq_lookup NodeEq.objNil key
  | objCongr h1 h2 => exact fieldsEq_lookup (NodeEq.objCongr h1 h2) key
  | objWrap hm hw h1 h2 => exact fieldsEq_lookup (NodeEq.objWrap hm hw h1 h2) key
  | objUnwrap hm hw h1 h2 => exact fieldsEq_lookup (NodeEq.objUnwrap hm hw h1 h2) key
  | _ => exact Or.inl NodeEq.undef

/-- At a key outside the ambiguity positions, `FieldEq1` is just `NodeEq`. -/
theorem fieldEq1_nonrelevant {k : String} {v v' : JsValue} (h : FieldEq1 k v v')
    (hk : k ∉ relevantKeys) : NodeEq v v' := by
  rcases h with h2 | ⟨hmem, _⟩
  · exact h2
  · exact absurd hmem hk

/-- A wrappable value is normalized by `toArray` to the one-element sequence
holding it. -/
theorem toArray_wrappable {v : JsValue} (h : wrappable v = true) : toArray v = [v] := by
  cases v <;> first | rfl | simp [wrappable] at h

/-- Equivalent values normalize to pointwise-equivalent sequences. -/
theorem nodeEq_toArray {v v' : JsValue} (h : NodeEq v v') :
    NodeEq (vArr (toArray v)) (vArr (toArray v')) := by
  cases h with
  | undef => exact .arrNil
  | arrNil => exact .arrNil
  | arrCons h1 h2 => exact .arrCons h1 h2
  | null => exact .arrCons .null .arrNil
  | bool => exact .arrCons .bool .arrNil
  | num => exact .arrCons .num .arrNil
  | str => exact .arrCons .str .arrNil
  | objNil => exact .arrCons .objNil .arrNil
  | objCongr h1 h2 => exact .arrCons (.objCongr h1 h2) .arrNil
  | objWrap hm hw h1 h2 => exact .arrCons (.objWrap hm hw h1 h2) .arrNil
  | objUnwrap hm hw h1 h2 => exact .arrCons (.objUnwrap hm hw h1 h2) .arrNil

/-- The two sides of a field-level ambiguity normalize to pointwise-equivalent
sequences: `toArray` cancels the wrap. -/
theorem fieldEq1_toArray {k : String} {v v' : JsValue} (h : FieldEq1 k v v') :
    NodeEq (vArr (toArray v)) (vArr (toArray v')) := by
  rcases h with h2 | ⟨hmem, ⟨w, hw, rfl, h2⟩ | ⟨w, rfl, hw, h2⟩⟩
  · exact nodeEq_toArray h2
  · rw [toArray_wrappable hw]
    exact .arrCons h2 .arrNil
  · have hw' : wrappable v' = true := by
      rw [← nodeEq_wrappable h2]
      exact hw
    rw [toArray_wrappable hw']
    exact .arrCons h2 .arrNil

/-- Reading a property of equivalent values throws on both or neither, and
on neither the results are `FieldEq1`-related. -/
theorem nodeEq_getField {v v' : JsValue} (h : NodeEq v v') (key : String) :
    (getField v key = none ∧ getField v' key = none) ∨
    (∃ w w', getField v key = some w ∧ getField v' key = some w' ∧ FieldEq1 key w w') := by
  cases h with
  | undef => exact Or.inl ⟨rfl, rfl⟩
  | null => exact Or.inl ⟨rfl, rfl⟩
  | bool => exact Or.inr ⟨_, _, rfl, rfl, Or.inl NodeEq.undef⟩
  | num => exact Or.inr ⟨_, _, rfl, rfl, Or.inl NodeEq.undef⟩
  | str => exact Or.inr ⟨_, _, rfl, rfl, Or.inl NodeEq.undef⟩
  | arrNil => exact Or.inr ⟨_, _, rfl, rfl, Or.inl NodeEq.undef⟩
  | arrCons h1 h2 => exact Or.inr ⟨_, _, rfl, rfl, Or.inl NodeEq.undef⟩
  | objNil => exact Or.inr ⟨_, _, rfl, rfl, fieldsEq_lookup NodeEq.objNil key⟩
  | objCongr h1 h2 => exact Or.inr ⟨_, _, rfl, rfl, fieldsEq_lookup (NodeEq.objCongr h1 h2) key⟩
  | objWrap hm hw h1 h2 =>
    exact Or.inr ⟨_, _, rfl, rfl, fieldsEq_lookup (NodeEq.objWrap hm hw h1 h2) key⟩
  | objUnwrap hm hw h1 h2 =>
    exact Or.inr ⟨_, _, rfl, rfl, fieldsEq_lookup (NodeEq.objUnwrap hm hw h1 h2) key⟩

/-- Equivalent objects have equal text-content (`_` property) reads: the `_`
key is not an ambiguity position, so the looked-up values are equivalent,
and equivalence preserves being a bare string. -/
theorem objEq_underscoreOf {fs fs' : List (String × JsValue)}
    (h : NodeEq (vObj fs) (vObj fs')) :
    underscoreOf (vObj fs) = underscoreOf (vObj fs') := by
  have h1 := fieldsEq_lookup h "_"
  rcases h1 with h2 | ⟨hmem, _⟩
  · simp only [underscoreOf]
    revert h2
    generalize lookupField fs "_" = a
    generalize lookupField fs' "_" = b
    intro h2
    cases h2 <;> rfl
  · exact absurd hmem (by decide)

/-- Equivalent values have equal text-content reads. -/
theorem nodeEq_underscoreOf {v v' : JsValue} (h : NodeEq v v') :
    underscoreOf v = underscoreOf v' := by
  cases h with
  | objNil => rfl
  | objCongr h1 h2 => exact objEq_underscoreOf (.objCongr h1 h2)
  | objWrap hm hw h1 h2 => exact objEq_underscoreOf (.objWrap hm hw h1 h2)
  | objUnwrap hm hw h1 h2 => exact objEq_underscoreOf (.objUnwrap hm hw h1 h2)
  | _ => rfl

/-- Equivalent values resolve to equal strings under `asString`. -/
theorem nodeEq_asString {v v' : JsValue} (h : NodeEq v v') : asString v = asString v' := by
  cases h with
  | arrCons h1 h2 =>
    simp only [asString]
    cases h1 with
    | objNil => rfl
    | objCongr h3 h4 => exact objEq_underscoreOf (.objCongr h3 h4)
    | objWrap hm hw h3 h4 => exact objEq_underscoreOf (.objWrap hm hw h3 h4)
    | objUnwrap hm hw h3 h4 => exact objEq_underscoreOf (.objUnwrap hm hw h3 h4)
    | _ => rfl
  | objNil => rfl
  | objCongr h1 h2 => exact objEq_underscoreOf (.objCongr h1 h2)
  | objWrap hm hw h1 h2 => exact objEq_underscoreOf (.objWrap hm hw h1 h2)
  | objUnwrap hm hw h1 h2 => exact objEq_underscoreOf (.objUnwrap hm hw h1 h2)
  | _ => rfl

/-- Wrapping a non-array value does not change its `asString` resolution. -/
theorem asString_wrap {v : JsValue} (h : wrappable v = true) :
    asString (vArr [v]) = asString v := by
  cases v <;> first | rfl | simp [wrappable] at h

/-- Field-level ambiguity is invisible to `asString`. -/
theorem fieldEq1_asString {k : String} {v v' : JsValue} (h : FieldEq1 k v v') :
    asString v = asString v' := by
  rcases h with h2 | ⟨hmem, ⟨w, hw, rfl, h2⟩ | ⟨w, rfl, hw, h2⟩⟩
  · exact nodeEq_asString h2
  · have hw' : wrappable w = true := by
      rw [← nodeEq_wrappable h2]
      exact hw
    rw [asString_wrap hw']
    exact nodeEq_asString h2
  · rw [asString_wrap hw]
    exact nodeEq_asString h2

/-- Breadcrumb building is invariant under tree equivalence. -/
theorem nodeEq_appendName {c c' : JsValue} (h : NodeEq c c') (parts : List String) :
    appendName parts c = appendName parts c' := by
  unfold appendName
  rw [nodeEq_jsFalsy h, fieldEq1_asString (nodeEq_fieldOf h "name")]

/-- Coordinate parsing is invariant under field-level ambiguity. -/
theorem fieldEq1_parseCoordinates {k : String} {v v' : JsValue} (h : FieldEq1 k v v') :
    parseCoordinates v = parseCoordinates v' := by
  unfold parseCoordinates
  rw [fieldEq1_asString h]

/-- Pointwise equivalence of element lists is compatible with append. -/
theorem listNodeEq_append : ∀ {a a' : List JsValue}, NodeEq (vArr a) (vArr a') →
    ∀ {b b' : List JsValue}, NodeEq (vArr b) (vArr b') →
    NodeEq (vArr (a ++ b)) (vArr (a' ++ b')) := by
  intro a
  induction a with
  | nil =>
    intro a' ha b b' hb
    cases ha
    exact hb
  | cons v tl ih =>
    intro a' ha b b' hb
    cases ha with
    | arrCons h1 h2 => exact .arrCons h1 (ih h2 hb)

/-- Pointwise-equivalent element lists have equal length. -/
theorem listNodeEq_length : ∀ {l l' : List JsValue}, NodeEq (vArr l) (vArr l') →
    l.length = l'.length := by
  intro l
  induction l with
  | nil =>
    intro l' h
    cases h
    rfl
  | cons v tl ih =>
    intro l' h
    cases h with
    | arrCons h1 h2 => simp [ih h2]

/-- Line-geometry discovery is invariant under tree equivalence, up to
pointwise equivalence of the discovered geometries. -/
theorem nodeEq_collectLineStrings (n : ℕ) : ∀ {v v' : JsValue}, jsSize v ≤ n →
    NodeEq v v' →
    NodeEq (vArr (collectLineStrings v)) (vArr (collectLineStrings v')) := by
  induction n with
  | zero =>
    intro v _ hn _
    exact absurd (Nat.lt_of_lt_of_le (jsSize_pos v) hn) (by omega)
  | succ n ih =>
    intro v v' hn h
    rw [collectLineStrings_eq v, collectLineStrings_eq v', nodeEq_jsFalsy h]
    by_cases hf : jsFalsy v' = true
    · simp only [hf, if_true]
      exact .arrNil
    · simp only [hf, Bool.false_eq_true, if_false]
      apply listNodeEq_append (fieldEq1_toArray (nodeEq_fieldOf h "LineString"))
      have hsub : ∀ (l : List JsValue), (∀ c ∈ l, jsSize c ≤ n) →
          ∀ (l' : List JsValue), NodeEq (vArr l) (vArr l') →
          NodeEq (vArr (l.map collectLineStrings).flatten)
            (vArr (l'.map collectLineStrings).flatten) := by
        intro l
        induction l with
        | nil =>
          intro _ l' hrel
          cases hrel
          exact .arrNil
        | cons c tl ihl =>
          intro hmem l' hrel
          cases hrel with
          | arrCons h1 h2 =>
            simp only [List.map_cons, List.flatten_cons]
            exact listNodeEq_append
              (ih (hmem _ (List.mem_cons_self _ _)) h1)
              (ihl (fun d hd => hmem d (List.mem_cons_of_mem _ hd)) _ h2)
      apply hsub _ ?_ _ (fieldEq1_toArray (nodeEq_fieldOf h "MultiGeometry"))
      intro c hc
      have := jsSize_mem_toArray_fieldOf hc
      omega

/-- One discovered line geometry produces the same optional segment on both
sides of the equivalence. -/
theorem nodeEq_processLineString {ls ls' : JsValue} (h : NodeEq ls ls') (total : ℕ)
    (breadcrumb : List String) (idx : ℕ) :
    processLineString total breadcrumb idx ls = processLineString total breadcrumb idx ls' := by
  unfold processLineString
  rcases nodeEq_getField h "coordinates" with ⟨h1, h2⟩ | ⟨w, w', h1, h2, hww⟩
  · rw [h1, h2]
  · rw [h1, h2]
    dsimp only
    rw [fieldEq1_parseCoordinates hww]

/-- Enumeration of pointwise-equivalent geometry lists maps to equal
per-geometry results. -/
theorem listNodeEq_enumFrom_map (total : ℕ) (breadcrumb : List String) :
    ∀ {l : List JsValue} (i : ℕ) {l' : List JsValue}, NodeEq (vArr l) (vArr l') →
    (List.enumFrom i l).map (fun p => processLineString total breadcrumb p.1 p.2) =
    (List.enumFrom i l').map (fun p => processLineString total breadcrumb p.1 p.2) := by
  intro l
  induction l with
  | nil =>
    intro i l' hrel
    cases hrel
    rfl
  | cons v tl ih =>
    intro i l' hrel
    cases hrel with
    | arrCons h1 h2 =>
      simp only [List.enumFrom, List.map_cons]
      rw [nodeEq_processLineString h1, ih _ h2]

/-- Processing a placemark is invariant under tree equivalence. -/
theorem nodeEq_processPlacemark {p p' : JsValue} (h : NodeEq p p') (sa : List String) :
    processPlacemark sa p = processPlacemark sa p' := by
  unfold processPlacemark
  have hls := nodeEq_collectLineStrings (jsSize p) le_rfl h
  dsimp only
  rw [nodeEq_appendName h sa, listNodeEq_length hls]
  simp only [List.enum]
  rw [listNodeEq_enumFrom_map _ _ 0 hls]

/-- Mapping placemark processing over pointwise-equivalent lists gives equal
result lists. -/
theorem listNodeEq_map_processPlacemark (sa : List String) :
    ∀ {l l' : List JsValue}, NodeEq (vArr l) (vArr l') →
    l.map (processPlacemark sa) = l'.map (processPlacemark sa) := by
  intro l
  induction l with
  | nil =>
    intro l' hrel
    cases hrel
    rfl
  | cons v tl ih =>
    intro l' hrel
    cases hrel with
    | arrCons h1 h2 =>
      simp only [List.map_cons]
      rw [nodeEq_processPlacemark h1 sa, ih h2]

/-- Container traversal is invariant under tree equivalence. -/
theorem nodeEq_traverseAux (n : ℕ) : ∀ {c c' : JsValue}, jsSize c ≤ n → NodeEq c c' →
    ∀ ancestors : List String,
    traverseContainer c ancestors = traverseContainer c' ancestors := by
  induction n with
  | zero =>
    intro c _ hn _
    exact absurd (Nat.lt_of_lt_of_le (jsSize_pos c) hn) (by omega)
  | succ n ih =>
    intro c c' hn h ancestors
    rw [traverseContainer_eq c ancestors, traverseContainer_eq c' ancestors]
    rcases nodeEq_getField h "Placemark" with ⟨h1, h2⟩ | ⟨pm, pm', h1, h2, hpm⟩
    · rw [h1, h2]
    · rw [h1, h2]
      dsimp only
      rw [nodeEq_appendName h ancestors,
        listNodeEq_map_processPlacemark _ (fieldEq1_toArray hpm)]
      have hfold : (toArray (fieldOf c "Folder")).map
            (fun f => traverseContainer f (appendName ancestors c')) =
          (toArray (fieldOf c' "Folder")).map
            (fun f => traverseContainer f (appendName ancestors c')) := by
        have hrel := fieldEq1_toArray (nodeEq_fieldOf h "Folder")
        have hmem : ∀ d ∈ toArray (fieldOf c "Folder"), jsSize d ≤ n := by
          intro d hd
          have := jsSize_mem_toArray_fieldOf hd
          omega
        revert hrel hmem
        generalize toArray (fieldOf c "Folder") = l
        generalize toArray (fieldOf c' "Folder") = l'
        intro hrel hmem
        induction l generalizing l' with
        | nil =>
          cases hrel
          rfl
        | cons d tl ihl =>
          cases hrel with
          | arrCons h3 h4 =>
            simp only [List.map_cons]
            rw [ih (hmem _ (List.mem_cons_self _ _)) h3,
              ihl _ h4 (fun e he => hmem e (List.mem_cons_of_mem _ he))]
      rw [hfold]

/-- Container traversal is invariant under tree equivalence (top-level form). -/
theorem nodeEq_traverseContainer {c c' : JsValue} (h : NodeEq c c')
    (ancestors : List String) :
    traverseContainer c ancestors = traverseContainer c' ancestors :=
  nodeEq_traverseAux (jsSize c) le_rfl h ancestors

/-- Mapping container traversal over pointwise-equivalent document lists
gives equal result lists. -/
theorem listNodeEq_map_traverse (anc : List String) :
    ∀ {l l' : List JsValue}, NodeEq (vArr l) (vArr l') →
    l.map (fun d => traverseContainer d anc) = l'.map (fun d => traverseContainer d anc) := by
  intro l
  induction l with
  | nil =>
    intro l' hrel
    cases hrel
    rfl
  | cons v tl ih =>
    intro l' hrel
    cases hrel with
    | arrCons h1 h2 =>
      simp only [List.map_cons]
      rw [nodeEq_traverseContainer h1 anc, ih h2]

/-- Route-segment extraction is invariant under tree equivalence. -/
theorem nodeEq_collectRouteSegments {t t' : JsValue} (h : NodeEq t t') :
    collectRouteSegments t = collectRouteSegments t' := by
  unfold collectRouteSegments
  dsimp only
  have hroot : NodeEq (fieldOf t "kml") (fieldOf t' "kml") :=
    fieldEq1_nonrelevant (nodeEq_fieldOf h "kml") (by decide)
  rw [nodeEq_isRecord h, nodeEq_isRecord hroot,
    listNodeEq_map_traverse [] (fieldEq1_toArray (nodeEq_fieldOf hroot "Document"))]

/-- A sample tree holding its `Placemark` and `coordinates` values as bare
(unwrapped) nodes. -/
def treeBareSample : JsValue :=
  vObj [("kml", vObj [("Document", vObj [("Placemark",
    vObj [("name", vStr "Coast"),
          ("LineString", vObj [("coordinates", vStr "174,-41")])])])])]

/-- The same sample tree with the `Placemark` and `coordinates` values
wrapped in one-element arrays. -/
def treeWrappedSample : JsValue :=
  vObj [("kml", vObj [("Document", vObj [("Placemark", vArr [
    vObj [("name", vStr "Coast"),
          ("LineString", vObj [("coordinates", vArr [vStr "174,-41"])])]])])])]

/-- The two sample trees are equivalent: they differ by one wrap at the
`Placemark` position and one wrap at the `coordinates` position. -/
theorem treeSample_nodeEq : NodeEq treeBareSample treeWrappedSample := by
  unfold treeBareSample treeWrappedSample
  have hcoords : NodeEq (vObj [("coordinates", vStr "174,-41")])
      (vObj [("coordinates", vArr [vStr "174,-41"])]) :=
    NodeEq.objWrap (by decide) rfl NodeEq.str NodeEq.objNil
  have hpm : NodeEq
      (vObj [("name", vStr "Coast"),
             ("LineString", vObj [("coordinates", vStr "174,-41")])])
      (vObj [("name", vStr "Coast"),
             ("LineString", vObj [("coordinates", vArr [vStr "174,-41"])])]) :=
    NodeEq.objCongr NodeEq.str (NodeEq.objCongr hcoords NodeEq.objNil)
  exact NodeEq.objCongr (NodeEq.objCongr (NodeEq.objWrap (by decide) rfl hpm NodeEq.objNil)
    NodeEq.objNil) NodeEq.objNil

/-- C9: normalize-to-sequence equivalence.  `toArray` treats an absent
(`undefined`) value as the empty sequence, an existing sequence as itself,
and any other (bare) value as the one-element sequence holding it; and for
every pair of document trees related by `NodeEq` — equal up to replacing a
bare value by the one-element sequence containing it (or vice versa) at the
repeated-tag ambiguity positions (`Document`, `Placemark`, `Folder`,
`LineString`, `MultiGeometry` children and the textual-content positions
`name` / `coordinates`) — `collectRouteSegments` produces the same output. -/
theorem C9_normalize_to_sequence :
    toArray vUndef = [] ∧ (∀ es : List JsValue, toArray (vArr es) = es) ∧
    (∀ v : JsValue, wrappable v = true → toArray v = [v]) ∧
    ∀ t t' : JsValue, NodeEq t t' → collectRouteSegments t = collectRouteSegments t' :=
  ⟨rfl, fun _ => rfl, fun _ h => toArray_wrappable h,
   fun _ _ h => nodeEq_collectRouteSegments h⟩

/-- Witness for C9: a concrete scalar normalizes to its one-element sequence,
and the concrete bare/wrapped sample trees — which differ by a wrap at the
`Placemark` and `coordinates` positions — extract the same single segment. -/
theorem C9_normalize_to_sequence_witness :
    toArray (vStr "174,-41") = [vStr "174,-41"] ∧
    collectRouteSegments treeBareSample = collectRouteSegments treeWrappedSample ∧
    collectRouteSegments treeBareSample =
      some [{ name := "Coast",
              coordinates := [{ latitude := -41, longitude := 174, altitude := none }] }] :=
  ⟨C9_normalize_to_sequence.2.2.1 (vStr "174,-41") rfl,
   C9_normalize_to_sequence.2.2.2 treeBareSample treeWrappedSample treeSample_nodeEq,
   by decide⟩
